import Mathlib

/-!
# Verification of kubectl-watch-rollout core computations

Shallow embedding of the rollout-monitoring core:
* progress / ETA estimation (`calculateProgress`, `calculateETA`),
* the rollout status classifier (`CalculateRolloutStatus`),
* the event summarizer (`SummarizeEvents`) with its masking patterns.

Timestamps are modelled as integers (nanoseconds, as in Go `time.Time`
durations); `float64` quantities are modelled as exact rationals.
-/

namespace WatchRollout

/-- `MinProgressForETA = 0.05` from the source constants. -/
def MinProgressForETA : ℚ := 1/20

/-- `MaxRealisticETAHours*time.Hour = 24` hours in nanoseconds. -/
def maxRealisticETANanos : ℤ := 24 * 3600 * 1000000000

/-- Embeds `calculateProgress(available, desired int32) float64`:
returns `float64(available)/float64(desired)`, or `0` when `desired == 0`. -/
def calculateProgress (available desired : ℤ) : ℚ :=
  if desired = 0 then 0 else (available : ℚ) / (desired : ℚ)

/-- Embeds `calculateETA(progress float64, startTime time.Time,
progressUpdateTime *time.Time) *time.Time`.  The Go code compares
`time.Until(eta)` against zero, i.e. consults the evaluation clock; that
clock is the explicit `now` argument here.  `time.Duration(float64(elapsed)/progress)`
truncates the positive quotient, i.e. takes its floor. -/
def calculateETA (progress : ℚ) (startTime : ℤ) (progressUpdateTime : Option ℤ)
    (now : ℤ) : Option ℤ :=
  if progress < MinProgressForETA ∨ 1 ≤ progress then none
  else
    match progressUpdateTime with
    | none => none
    | some put =>
      let elapsed : ℤ := put - startTime
      if elapsed ≤ 0 then none
      else
        let totalEstimated : ℤ := ⌊(elapsed : ℚ) / progress⌋
        if maxRealisticETANanos ≤ totalEstimated then none
        else
          let eta : ℤ := startTime + totalEstimated
          if eta ≤ now then none else some eta

/-- Embeds the `RolloutStatus` enumeration. -/
inductive RolloutStatus where
  | Progressing
  | DeadlineExceeded
  | Complete
deriving DecidableEq, Repr

/-- Embeds `appsv1.DeploymentCondition` (the fields the classifier reads):
a condition type, a `corev1.ConditionStatus` string and a reason string. -/
structure DeploymentCondition where
  ctype : String
  status : String
  reason : String
deriving DecidableEq, Repr

/-- Reason string `NewReplicaSetAvailable` from the source constants. -/
def NewReplicaSetAvailable : String := "NewReplicaSetAvailable"

/-- Reason string `ProgressDeadlineExceeded` from the source constants. -/
def ProgressDeadlineExceeded : String := "ProgressDeadlineExceeded"

/-- Embeds `hasCondition(status, condType, condStatus, reason)`: scans the
condition list; if `reason` is empty only type/status are checked. -/
def hasCondition (conds : List DeploymentCondition)
    (condType condStatus reason : String) : Bool :=
  conds.any fun c =>
    c.ctype = condType ∧ c.status = condStatus ∧ (reason = "" ∨ c.reason = reason)

/-- Embeds `isDeploymentComplete(status)`. -/
def isDeploymentComplete (conds : List DeploymentCondition) : Bool :=
  hasCondition conds "Available" "True" "" &&
    hasCondition conds "Progressing" "True" NewReplicaSetAvailable

/-- Embeds `isDeploymentFailed(status)`. -/
def isDeploymentFailed (conds : List DeploymentCondition) : Bool :=
  hasCondition conds "Progressing" "False" ProgressDeadlineExceeded

/-- Embeds `CalculateRolloutStatus`: Complete check first, then
DeadlineExceeded, otherwise Progressing. -/
def CalculateRolloutStatus (conds : List DeploymentCondition) : RolloutStatus :=
  if isDeploymentComplete conds then .Complete
  else if isDeploymentFailed conds then .DeadlineExceeded
  else .Progressing

/-! ## Masking regexes

An executable model of the Go `regexp` patterns in `defaultMaskPatterns`
and of `Regexp.ReplaceAllString`.  Go's regexp package uses leftmost
matching with greedy (preferred-first) subexpression semantics; all
repetition in these patterns is over single character classes, which the
`RE` syntax below captures exactly.  `\b` is the ASCII word boundary. -/

/-- ASCII word character, as used by RE2 `\b`. -/
def isWordChar (c : Char) : Bool := c.isAlphanum || c = '_'

/-- Regular expressions as used by the masking patterns: character
classes, greedy counted repetition of a class, concatenation, greedy
option, and word boundary. -/
inductive RE where
  | cls (p : Char → Bool)
  | rep (p : Char → Bool) (lo : Nat) (hi : Option Nat)
  | seq (a b : RE)
  | opt (a : RE)
  | wb

/-- The empty regex (matches the empty string). -/
def epsRE : RE := .rep (fun _ => false) 0 (some 0)

/-- A literal character. -/
def litRE (c : Char) : RE := .cls (fun x => x = c)

/-- A literal string. -/
def strRE (s : String) : RE :=
  s.data.foldr (fun c acc => RE.seq (litRE c) acc) epsRE

/-- `\b` holds between `prev` and the head of `s` iff exactly one side is
a word character (ends of the string count as non-word). -/
def boundaryOk (prev : Option Char) (s : List Char) : Bool :=
  let a := match prev with | some c => isWordChar c | none => false
  let b := match s with | c :: _ => isWordChar c | [] => false
  a != b

/-- The last character of `u`, falling back to `prev` when `u` is empty;
threads the `\b` left-context through the matcher. -/
def lastOpt (prev : Option Char) (u : List Char) : Option Char :=
  match u.getLast? with
  | some c => some c
  | none => prev

/-- Greedy matcher for a counted class repetition, in continuation style:
prefers consuming another character, backing off one at a time. -/
def repRun (p : Char → Bool) (lo : Nat) (hi : Option Nat) (prev : Option Char)
    (s : List Char) (k : Option Char → List Char → Option (List Char)) :
    Option (List Char) :=
  match s with
  | [] => if lo = 0 then k prev [] else none
  | c :: rest =>
    if hi = some 0 then (if lo = 0 then k prev s else none)
    else if p c then
      (repRun p (lo - 1) (hi.map (· - 1)) (some c) rest k) <|>
        (if lo = 0 then k prev s else none)
    else (if lo = 0 then k prev s else none)

/-- Preference-order (leftmost-first/greedy, as in Go regexp) matcher in
continuation style; returns the suffix left over after the first
successful parse, if any. -/
def reRun : RE → Option Char → List Char →
    (Option Char → List Char → Option (List Char)) → Option (List Char)
  | .cls p, _, s, k =>
    match s with
    | [] => none
    | c :: rest => if p c then k (some c) rest else none
  | .rep p lo hi, prev, s, k => repRun p lo hi prev s k
  | .seq a b, prev, s, k => reRun a prev s fun p' s' => reRun b p' s' k
  | .opt a, prev, s, k => (reRun a prev s k) <|> k prev s
  | .wb, prev, s, k => if boundaryOk prev s then k prev s else none

/-- Length of the match of `r` at the start of `s` (with left context
`prev`), if any. -/
def matchLenAt (r : RE) (prev : Option Char) (s : List Char) : Option Nat :=
  (reRun r prev s fun _ rest => some rest).map fun rest => s.length - rest.length

/-- A (necessarily non-empty) match of `r` starts at the head of `s`. -/
def posMatchAt (r : RE) (prev : Option Char) (s : List Char) : Option Nat :=
  match matchLenAt r prev s with
  | some (n + 1) => some (n + 1)
  | _ => none

/-- Some non-empty match of `r` starts at some position of `s` given left
context `prev`. -/
def existsMatch (r : RE) (prev : Option Char) (s : List Char) : Bool :=
  match s with
  | [] => (posMatchAt r prev []).isSome
  | c :: rest => (posMatchAt r prev s).isSome || existsMatch r (some c) rest

/-- Fuelled scanner for `ReplaceAllString`; `fuel ≥ s.length` always
suffices, since every replaced match is non-empty. -/
def scanReplF (r : RE) (token : List Char) :
    Nat → Option Char → List Char → List Char
  | 0, _, s => s
  | _ + 1, _, [] => []
  | fuel + 1, prev, c :: rest =>
    match posMatchAt r prev (c :: rest) with
    | some (n + 1) =>
      token ++
        scanReplF r token fuel (lastOpt prev ((c :: rest).take (n + 1)))
          ((c :: rest).drop (n + 1))
    | _ => c :: scanReplF r token fuel (some c) rest

/-- Embeds `Regexp.ReplaceAllString`: scan left to right over the original
characters, replacing each leftmost non-overlapping match by `token` and
resuming after it (matching context comes from the original string). -/
def scanRepl (r : RE) (token : List Char) (prev : Option Char)
    (s : List Char) : List Char :=
  scanReplF r token s.length prev s

/-- `ReplaceAllString` on strings. -/
def replaceAllRE (r : RE) (token : String) (s : String) : String :=
  ⟨scanRepl r token.data none s.data⟩

/-- `[0-9]` (`\d`). -/
def isDig (c : Char) : Bool := c.isDigit

/-- `[a-z0-9]`. -/
def isLowDig (c : Char) : Bool := c.isLower || c.isDigit

/-- `[a-z0-9-]`. -/
def isLowDigDash (c : Char) : Bool := isLowDig c || c = '-'

/-- `[a-z0-9.-]`. -/
def isLowDigDotDash (c : Char) : Bool := isLowDig c || c = '.' || c = '-'

/-- `[a-zA-Z0-9/:._@-]`. -/
def isImageChar (c : Char) : Bool :=
  c.isAlphanum || c = '/' || c = ':' || c = '.' || c = '_' || c = '@' || c = '-'

/-- `[0-9a-f]` case-insensitively (`(?i)`). -/
def isHex (c : Char) : Bool :=
  c.isDigit || ('a' ≤ c ∧ c ≤ 'f') || ('A' ≤ c ∧ c ≤ 'F')

/-- Concatenation of a list of regexes. -/
def catRE (l : List RE) : RE := l.foldr RE.seq epsRE

/-- `\b\d+\.dkr\.ecr\.[a-z0-9-]+\.amazonaws\.com(?:\.cn)?/[a-zA-Z0-9/:._@-]+` -/
def ecrImageRE : RE :=
  catRE [.wb, .rep isDig 1 none, strRE ".dkr.ecr.", .rep isLowDigDash 1 none,
    strRE ".amazonaws.com", .opt (strRE ".cn"), litRE '/', .rep isImageChar 1 none]

/-- `\b[a-z0-9-]+/[a-z0-9]+-[a-z0-9]{5,10}-[a-z0-9]{5}\b` -/
def nsPodRE : RE :=
  catRE [.wb, .rep isLowDigDash 1 none, litRE '/', .rep isLowDig 1 none,
    litRE '-', .rep isLowDig 5 (some 10), litRE '-', .rep isLowDig 5 (some 5), .wb]

/-- `\b[a-z0-9]+-[a-z0-9]{5,10}-[a-z0-9]{5}\b` -/
def podRE : RE :=
  catRE [.wb, .rep isLowDig 1 none, litRE '-', .rep isLowDig 5 (some 10),
    litRE '-', .rep isLowDig 5 (some 5), .wb]

/-- `\bip-\d+-\d+-\d+-\d+\.[a-z0-9.-]+\.internal\b` -/
def ec2NodeRE : RE :=
  catRE [.wb, strRE "ip-", .rep isDig 1 none, litRE '-', .rep isDig 1 none,
    litRE '-', .rep isDig 1 none, litRE '-', .rep isDig 1 none, litRE '.',
    .rep isLowDigDotDash 1 none, strRE ".internal", .wb]

/-- `\bgke-[a-z0-9-]+\b` -/
def gkeNodeRE : RE := catRE [.wb, strRE "gke-", .rep isLowDigDash 1 none, .wb]

/-- One octet, `\d{1,3}`. -/
def octetRE : RE := .rep isDig 1 (some 3)

/-- `\b\d{1,3}\.\d{1,3}\.\d{1,3}\.\d{1,3}:\d+\b` -/
def ipPortRE : RE :=
  catRE [.wb, octetRE, litRE '.', octetRE, litRE '.', octetRE, litRE '.',
    octetRE, litRE ':', .rep isDig 1 none, .wb]

/-- `\b\d{1,3}\.\d{1,3}\.\d{1,3}\.\d{1,3}\b` -/
def ipRE : RE :=
  catRE [.wb, octetRE, litRE '.', octetRE, litRE '.', octetRE, litRE '.',
    octetRE, .wb]

/-- `(?i)\b[0-9a-f]{8}-[0-9a-f]{4}-[0-9a-f]{4}-[0-9a-f]{4}-[0-9a-f]{12}\b` -/
def uuidRE : RE :=
  catRE [.wb, .rep isHex 8 (some 8), litRE '-', .rep isHex 4 (some 4),
    litRE '-', .rep isHex 4 (some 4), litRE '-', .rep isHex 4 (some 4),
    litRE '-', .rep isHex 12 (some 12), .wb]

/-- Embeds `defaultMaskPatterns`: the ordered pattern→token table. -/
def defaultMaskPatterns : List (RE × String) :=
  [(ecrImageRE, "<IMAGE>"),
   (nsPodRE, "<NS>/<POD>"),
   (podRE, "<POD>"),
   (ec2NodeRE, "<NODE>"),
   (gkeNodeRE, "<NODE>"),
   (ipPortRE, "<IP:PORT>"),
   (ipRE, "<IP>"),
   (uuidRE, "<UUID>")]

/-- Embeds `maskMessage`: apply each masking pattern in order. -/
def maskMessage (msg : String) : String :=
  defaultMaskPatterns.foldl (fun m p => replaceAllRE p.1 p.2 m) msg

/-- Embeds `sanitizeMessage`: newlines and carriage returns become
spaces (`strings.ReplaceAll` with single-character patterns). -/
def sanitizeMessage (msg : String) : String :=
  ⟨msg.data.map fun c => if c = '\n' ∨ c = '\r' then ' ' else c⟩

/-- `t` occurs at the start of `s`. -/
def isPrefixB : List Char → List Char → Bool
  | [], _ => true
  | _ :: _, [] => false
  | a :: as, b :: bs => a = b && isPrefixB as bs

/-- `t` occurs somewhere in `s` (substring test). -/
def occursB (t : List Char) : List Char → Bool
  | [] => isPrefixB t []
  | s@(_ :: rest) => isPrefixB t s || occursB t rest

/-- Every character class of `r` is contained in `d` (so any match of `r`
consumes only `d`-characters). -/
def clsOnly (d : Char → Bool) : RE → Prop
  | .cls p => ∀ c, p c = true → d c = true
  | .rep p _ _ => ∀ c, p c = true → d c = true
  | .seq a b => clsOnly d a ∧ clsOnly d b
  | .opt a => clsOnly d a
  | .wb => True

/-! ## Event summarizer -/

/-- Embeds the fields of `corev1.Event` read by `SummarizeEvents` and
`getEventTime`.  A zero Go timestamp (`IsZero`) is modelled as `none`;
times are integers on the upstream clock. -/
structure Event where
  etype : String
  reason : String
  message : String
  lastTimestamp : Option Int
  eventTime : Option Int
  creationTimestamp : Int
deriving DecidableEq, Repr

/-- Embeds `getEventTime`: `LastTimestamp`, else `EventTime`, else
`CreationTimestamp`. -/
def getEventTime (e : Event) : Int :=
  match e.lastTimestamp with
  | some t => t
  | none =>
    match e.eventTime with
    | some t => t
    | none => e.creationTimestamp

/-- Embeds `types.EventCluster` (the summarizer's output unit). -/
structure EventCluster where
  etype : String
  reason : String
  message : String
  exemplarCount : Nat
  lastSeen : Int
deriving DecidableEq, Repr

/-- Embeds `types.EventSummary`. -/
structure EventSummary where
  clusters : List EventCluster
  ignoredCount : Nat
deriving DecidableEq, Repr

/-- Modelled from the spec: the per-group clustering state of the Drain
engine (`github.com/faceair/drain`, a third-party library whose sources are
not part of this repository).  A cluster has an evolving space-separated
token template; `members` are the indices (into the input event list) of
the events folded into it, `times` their event times. -/
structure MCluster where
  etype : String
  reason : String
  template : List String
  members : List Nat
  times : List Int
deriving DecidableEq, Repr

/-- Modelled from the spec: positional token agreement count between a
template and a message (a template wildcard `<*>` matches any token). -/
def tokenMatchCount : List String → List String → Nat
  | [], _ => 0
  | _, [] => 0
  | a :: as, b :: bs =>
    (if a = b ∨ a = "<*>" then 1 else 0) + tokenMatchCount as bs

/-- Modelled from the spec: the string-similarity score between a cluster
template and a masked message — the fraction of positionally equal tokens
for equal-length token sequences, `0` otherwise (sequences of different
length never merge). -/
def simScore (tpl msg : List String) : ℚ :=
  if tpl.length = msg.length then mkRat (tokenMatchCount tpl msg) tpl.length
  else 0

/-- Modelled from the spec: template evolution — a position where the new
message disagrees becomes the wildcard `<*>`. -/
def evolveTemplate : List String → List String → List String
  | [], _ => []
  | ts, [] => ts
  | a :: as, b :: bs => (if a = b then a else "<*>") :: evolveTemplate as bs

/-- Index and score of the best-scoring cluster (first cluster among those
attaining the maximal score), if any cluster exists. -/
def bestIdx (msg : List String) : List MCluster → Option (Nat × ℚ)
  | [] => none
  | c :: cs =>
    let s0 := simScore c.template msg
    match bestIdx msg cs with
    | none => some (0, s0)
    | some (i, s) => if s0 < s then some (i + 1, s) else some (0, s0)

/-- Replace the `i`-th element of a list by `f` of it. -/
def updateAt {α : Type} : List α → Nat → (α → α) → List α
  | [], _, _ => []
  | c :: cs, 0, f => f c :: cs
  | c :: cs, n + 1, f => c :: updateAt cs n f

/-- Modelled from the spec: one step of incremental clustering — assign
the masked message to the best-scoring existing cluster when its score
reaches the threshold (evolving that cluster's template), else seed a new
cluster. -/
def clusterStep (θ : ℚ) (ty rs : String) (cs : List MCluster)
    (item : Nat × List String × Int) : List MCluster :=
  match bestIdx item.2.1 cs with
  | some (i, sc) =>
    if θ ≤ sc then
      updateAt cs i fun c =>
        { c with template := evolveTemplate c.template item.2.1,
                 members := c.members ++ [item.1],
                 times := c.times ++ [item.2.2] }
    else cs ++ [⟨ty, rs, item.2.1, [item.1], [item.2.2]⟩]
  | none => cs ++ [⟨ty, rs, item.2.1, [item.1], [item.2.2]⟩]

/-- Modelled from the spec: incremental clustering of one `(type, reason)`
group, processing masked messages in input order. -/
def clusterGroup (θ : ℚ) (key : String × String)
    (items : List (Nat × List String × Int)) : List MCluster :=
  items.foldl (clusterStep θ key.1 key.2) []

/-- Split a character list on single spaces (`strings.Split(s, " ")`). -/
def splitTokensGo : List Char → List Char → List String
  | acc, [] => [⟨acc.reverse⟩]
  | acc, c :: rest =>
    if c = ' ' then ⟨acc.reverse⟩ :: splitTokensGo [] rest
    else splitTokensGo (c :: acc) rest

/-- The masked token sequence the clustering engine sees for a message. -/
def maskedTokens (msg : String) : List String :=
  splitTokensGo [] (maskMessage (sanitizeMessage msg)).data

/-- Append a payload to its `(type, reason)` group, creating the group at
the end on first use (groups listed in first-insertion order). -/
def insertGrouped (gs : List ((String × String) × List (Nat × List String × Int)))
    (key : String × String) (pl : Nat × List String × Int) :
    List ((String × String) × List (Nat × List String × Int)) :=
  match gs with
  | [] => [(key, [pl])]
  | (k, its) :: rest =>
    if k = key then (k, its ++ [pl]) :: rest
    else (k, its) :: insertGrouped rest key pl

/-- Does the ignore pattern reject this event?  The pattern (an arbitrary
compiled regex in Go) is modelled as a string predicate applied, as in the
source, to `"<reason>: <message>"`. -/
def ignoredBy (ignore : Option (String → Bool)) (e : Event) : Bool :=
  match ignore with
  | none => false
  | some pat => pat (e.reason ++ ": " ++ e.message)

/-- One step of the grouping loop of `SummarizeEvents`: an ignored event
only bumps the counter, a surviving event is appended to its
`(Type, Reason)` group as `(index, masked tokens, event time)`. -/
def groupStep (ignore : Option (String → Bool))
    (acc : List ((String × String) × List (Nat × List String × Int)) × Nat)
    (ie : Nat × Event) :
    List ((String × String) × List (Nat × List String × Int)) × Nat :=
  if ignoredBy ignore ie.2 then (acc.1, acc.2 + 1)
  else
    (insertGrouped acc.1 (ie.2.etype, ie.2.reason)
      (ie.1, maskedTokens ie.2.message, getEventTime ie.2), acc.2)

/-- Embeds the grouping phase of `SummarizeEvents`: enumerate events,
drop ignored ones (counting them), group survivors by `(Type, Reason)`. -/
def buildGroups (events : List Event) (ignore : Option (String → Bool)) :
    List ((String × String) × List (Nat × List String × Int)) × Nat :=
  events.enum.foldl (groupStep ignore) ([], 0)

/-- The clustering phase: cluster every group and concatenate (canonical
order: groups in first-insertion order, clusters in creation order). -/
def summarizeCore (events : List Event) (ignore : Option (String → Bool))
    (θ : ℚ) : List MCluster × Nat :=
  (((buildGroups events ignore).1.map fun g => clusterGroup θ g.1 g.2).flatten,
    (buildGroups events ignore).2)

/-- `lastSeen` of a cluster: fold of `t.After(lastSeen)` starting from the
zero time, as in the source. -/
def lastSeenOf (times : List Int) : Int :=
  times.foldl (fun acc t => if acc < t then t else acc) 0

/-- Materialize an `EventCluster` from a cluster: final template text,
exemplar count, latest time. -/
def toEventCluster (c : MCluster) : EventCluster :=
  ⟨c.etype, c.reason, String.intercalate " " c.template,
    c.members.length, lastSeenOf c.times⟩

/-- Lexicographic strict order on character lists (Go's `<` on strings). -/
def charListLt : List Char → List Char → Bool
  | [], [] => false
  | [], _ :: _ => true
  | _ :: _, [] => false
  | a :: as, b :: bs =>
    if a < b then true else if b < a then false else charListLt as bs

/-- Go's `s1 < s2` on strings. -/
def strLtB (a b : String) : Bool := charListLt a.data b.data

/-- Embeds the comparator of the `sort.Slice` call in `SummarizeEvents`:
Warning before Normal, then descending exemplar count, then ascending
reason. -/
def clusterLess (a b : EventCluster) : Bool :=
  if a.etype ≠ b.etype then a.etype = "Warning"
  else if a.exemplarCount ≠ b.exemplarCount then b.exemplarCount < a.exemplarCount
  else strLtB a.reason b.reason

/-- Insert into a list sorted by `clusterLess` (never placing an element
strictly before one that must precede it). -/
def insertSorted (x : EventCluster) : List EventCluster → List EventCluster
  | [] => [x]
  | y :: ys => if clusterLess y x then y :: insertSorted x ys else x :: y :: ys

/-- Sorting per the `sort.Slice` comparator. -/
def sortClusters (l : List EventCluster) : List EventCluster :=
  l.foldr insertSorted []

/-- The two Kubernetes event types (`corev1.EventTypeWarning` /
`corev1.EventTypeNormal`). -/
def WN (x : EventCluster) : Prop :=
  x.etype = "Warning" ∨ x.etype = "Normal"

/-- Embeds `SummarizeEvents(events, ignoreRegex, threshold)`.  The Go code
iterates two hash maps (the `(type, reason)` group map and the per-group
cluster-pointer map) whose iteration order is unspecified; `σ` models that
choice as an arbitrary reordering applied to the pre-sort cluster list
(theorems quantify over permutations `σ`; `σ = id` is the canonical
order). -/
def SummarizeEvents (σ : List EventCluster → List EventCluster)
    (events : List Event) (ignore : Option (String → Bool)) (θ : ℚ) :
    EventSummary :=
  if events.length = 0 then ⟨[], 0⟩
  else
    let core := summarizeCore events ignore θ
    ⟨sortClusters (σ (core.1.map toEventCluster)), core.2⟩

end WatchRollout

namespace WatchRollout

/-- C2: the progress ratio is `available/desired` for positive `desired`,
and `0` when `desired = 0`; in particular `progress 0 d = 0` for `d > 0`
and `progress x 0 = 0`, so the division-by-zero branch is unreachable. -/
theorem calculateProgress_spec (available desired : ℤ)
    (ha : 0 ≤ available) (hd : 0 ≤ desired) :
    (desired = 0 → calculateProgress available desired = 0) ∧
    (0 < desired →
      calculateProgress available desired = (available : ℚ) / (desired : ℚ)) ∧
    calculateProgress 0 desired = 0 ∧
    calculateProgress available 0 = 0 := by
  refine ⟨fun h => by simp [calculateProgress, h], fun h => ?_, ?_, ?_⟩
  · have hne : desired ≠ 0 := by omega
    simp [calculateProgress, hne]
  · by_cases h : desired = 0 <;> simp [calculateProgress, h]
  · simp [calculateProgress]

/-- Witness for C2 at `available = 3`, `desired = 4`. -/
theorem calculateProgress_spec_witness :
    (0:ℤ) ≤ 3 ∧ (0:ℤ) ≤ 4 ∧ ((0:ℤ) < 4 → calculateProgress 3 4 = (3:ℚ)/4) := by
  refine ⟨by decide, by decide, ?_⟩
  exact (calculateProgress_spec 3 4 (by decide) (by decide)).2.1

/-- Unfolding equation for `calculateETA` on a present update timestamp. -/
theorem calculateETA_some_eq (p : ℚ) (s u now : ℤ) :
    calculateETA p s (some u) now =
      if p < MinProgressForETA ∨ 1 ≤ p then none
      else if u - s ≤ 0 then none
      else if maxRealisticETANanos ≤ ⌊((u - s : ℤ) : ℚ) / p⌋ then none
      else if s + ⌊((u - s : ℤ) : ℚ) / p⌋ ≤ now then none
      else some (s + ⌊((u - s : ℤ) : ℚ) / p⌋) := by
  by_cases hg : p < MinProgressForETA ∨ 1 ≤ p
  · simp only [calculateETA, if_pos hg]
  · simp only [calculateETA, if_neg hg]

/-- C1: `calculateETA` returns `none` exactly under the claimed guards
(progress below `MinProgressForETA`, progress at least 1, missing update
timestamp, non-positive elapsed, extrapolated total of at least 24h, or an
extrapolated completion not strictly after the evaluation time `now`), and
otherwise returns `startTime + elapsed/progress`; any returned ETA is
strictly after `now`. -/
theorem calculateETA_spec (p : ℚ) (s : ℤ) (put : Option ℤ) (now : ℤ) :
    (p < MinProgressForETA → calculateETA p s put now = none) ∧
    (1 ≤ p → calculateETA p s put now = none) ∧
    (put = none → calculateETA p s put now = none) ∧
    (∀ u, put = some u → u - s ≤ 0 → calculateETA p s put now = none) ∧
    (∀ u, put = some u → (maxRealisticETANanos : ℚ) ≤ ((u - s : ℤ) : ℚ) / p →
      calculateETA p s put now = none) ∧
    (∀ u, put = some u → s + ⌊((u - s : ℤ) : ℚ) / p⌋ ≤ now →
      calculateETA p s put now = none) ∧
    (∀ u, put = some u → MinProgressForETA ≤ p → p < 1 → 0 < u - s →
      ((u - s : ℤ) : ℚ) / p < (maxRealisticETANanos : ℚ) →
      now < s + ⌊((u - s : ℤ) : ℚ) / p⌋ →
      calculateETA p s put now = some (s + ⌊((u - s : ℤ) : ℚ) / p⌋)) ∧
    (∀ eta, calculateETA p s put now = some eta → now < eta) := by
  have hnone : calculateETA p s none now = none := by
    unfold calculateETA; split_ifs <;> rfl
  refine ⟨?_, ?_, ?_, ?_, ?_, ?_, ?_, ?_⟩
  · intro h
    cases put with
    | none => exact hnone
    | some u => rw [calculateETA_some_eq, if_pos (Or.inl h)]
  · intro h
    cases put with
    | none => exact hnone
    | some u => rw [calculateETA_some_eq, if_pos (Or.inr h)]
  · intro h; subst h; exact hnone
  · intro u hu he; subst hu
    rw [calculateETA_some_eq]
    split_ifs <;> first | rfl | exact absurd he (by assumption)
  · intro u hu hmax; subst hu
    have hfl : maxRealisticETANanos ≤ ⌊((u - s : ℤ) : ℚ) / p⌋ :=
      Int.le_floor.mpr hmax
    rw [calculateETA_some_eq]
    split_ifs <;> first | rfl | exact absurd hfl (by assumption)
  · intro u hu hpast; subst hu
    rw [calculateETA_some_eq]
    split_ifs <;> first | rfl | exact absurd hpast (by assumption)
  · intro u hu hmin hlt he hmax hfut; subst hu
    rw [calculateETA_some_eq]
    rw [if_neg (by push_neg; exact ⟨hmin, hlt⟩),
      if_neg (not_le.mpr he),
      if_neg (by rw [Int.le_floor]; exact not_le.mpr hmax),
      if_neg (not_le.mpr hfut)]
  · intro eta h
    cases put with
    | none => rw [hnone] at h; exact absurd h (by simp)
    | some u =>
      rw [calculateETA_some_eq] at h
      split_ifs at h with h1 h2 h3 h4
      all_goals try exact Option.noConfusion h
      have h' := Option.some.inj h
      have h4' := not_le.mp h4
      linarith

/-- Witness for C1: `p = 1/2`, `startTime = 0`, update at `100`, `now = 50`
gives ETA `200`, which is strictly in the future. -/
theorem calculateETA_spec_witness :
    calculateETA (1/2) 0 (some 100) 50 = some 200 ∧ (50:ℤ) < 200 := by
  constructor
  · have hv : (0:ℤ) + ⌊((100 - 0 : ℤ) : ℚ) / (1/2)⌋ = 200 := by
      norm_num
    have h := (calculateETA_spec (1/2) 0 (some 100) 50).2.2.2.2.2.2.1 100 rfl
      (by norm_num [MinProgressForETA]) (by norm_num) (by norm_num)
      (by rw [show ((100 - 0 : ℤ) : ℚ) / (1/2) = 200 by norm_num]
          norm_num [maxRealisticETANanos])
      (by rw [hv]; norm_num)
    rw [hv] at h
    exact h
  · decide

/-- C3: the classifier returns `Complete` iff an Available/True condition
exists and a Progressing/True condition with reason `NewReplicaSetAvailable`
exists; otherwise it returns `DeadlineExceeded` iff a Progressing/False
condition with reason `ProgressDeadlineExceeded` exists; otherwise it
returns `Progressing` (Complete checked before DeadlineExceeded). -/
theorem calculateRolloutStatus_spec (conds : List DeploymentCondition) :
    (CalculateRolloutStatus conds = .Complete ↔
      ((∃ c ∈ conds, c.ctype = "Available" ∧ c.status = "True") ∧
       (∃ c ∈ conds, c.ctype = "Progressing" ∧ c.status = "True" ∧
         c.reason = NewReplicaSetAvailable))) ∧
    (CalculateRolloutStatus conds ≠ .Complete →
      (CalculateRolloutStatus conds = .DeadlineExceeded ↔
        (∃ c ∈ conds, c.ctype = "Progressing" ∧ c.status = "False" ∧
          c.reason = ProgressDeadlineExceeded))) ∧
    (CalculateRolloutStatus conds ≠ .Complete →
      CalculateRolloutStatus conds ≠ .DeadlineExceeded →
      CalculateRolloutStatus conds = .Progressing) := by
  have hc : isDeploymentComplete conds = true ↔
      ((∃ c ∈ conds, c.ctype = "Available" ∧ c.status = "True") ∧
       (∃ c ∈ conds, c.ctype = "Progressing" ∧ c.status = "True" ∧
         c.reason = NewReplicaSetAvailable)) := by
    simp [isDeploymentComplete, hasCondition, NewReplicaSetAvailable,
      List.any_eq_true]
  have hf : isDeploymentFailed conds = true ↔
      (∃ c ∈ conds, c.ctype = "Progressing" ∧ c.status = "False" ∧
        c.reason = ProgressDeadlineExceeded) := by
    simp [isDeploymentFailed, hasCondition, ProgressDeadlineExceeded,
      List.any_eq_true]
  refine ⟨?_, ?_, ?_⟩
  · rw [← hc]
    unfold CalculateRolloutStatus
    split_ifs with h1 h2 <;> simp_all
  · intro hnc
    rw [← hf]
    unfold CalculateRolloutStatus at hnc ⊢
    split_ifs at hnc ⊢ with h1 h2 <;> simp_all
  · intro hnc hnd
    unfold CalculateRolloutStatus at hnc hnd ⊢
    split_ifs at hnc hnd ⊢ with h1 h2 <;> simp_all

/-- Witness for C3 (the second and third conjuncts carry hypotheses):
on a condition list with only a Progressing/False/ProgressDeadlineExceeded
condition the classifier is not Complete and is DeadlineExceeded. -/
theorem calculateRolloutStatus_spec_witness :
    CalculateRolloutStatus [⟨"Progressing", "False", "ProgressDeadlineExceeded"⟩] =
      .DeadlineExceeded := by
  have h := (calculateRolloutStatus_spec
    [⟨"Progressing", "False", "ProgressDeadlineExceeded"⟩]).2.1 (by decide)
  exact h.mpr ⟨⟨"Progressing", "False", "ProgressDeadlineExceeded"⟩,
    by simp [ProgressDeadlineExceeded]⟩

/-- C7 counterexample: a condition list (with pairwise-distinct elements,
hence a genuine condition set) satisfying the Complete predicate and the
DeadlineExceeded predicate simultaneously: it contains both a
Progressing/True/NewReplicaSetAvailable condition and a
Progressing/False/ProgressDeadlineExceeded condition. -/
theorem complete_and_failed_simultaneous :
    isDeploymentComplete
        [⟨"Available", "True", "MinimumReplicasAvailable"⟩,
         ⟨"Progressing", "True", "NewReplicaSetAvailable"⟩,
         ⟨"Progressing", "False", "ProgressDeadlineExceeded"⟩] = true ∧
    isDeploymentFailed
        [⟨"Available", "True", "MinimumReplicasAvailable"⟩,
         ⟨"Progressing", "True", "NewReplicaSetAvailable"⟩,
         ⟨"Progressing", "False", "ProgressDeadlineExceeded"⟩] = true := by
  decide

/-- Helper: a list containing two distinct members both satisfying `pr`
has `countP pr` at least 2. -/
theorem two_le_countP_of_mem {α : Type} (pr : α → Bool) :
    ∀ (l : List α) (a b : α), a ∈ l → b ∈ l → a ≠ b →
      pr a = true → pr b = true → 2 ≤ l.countP pr := by
  intro l
  induction l with
  | nil => intro a b ha; simp at ha
  | cons x xs ih =>
    intro a b ha hb hab hpa hpb
    rcases List.mem_cons.mp ha with rfl | ha'
    · rcases List.mem_cons.mp hb with rfl | hb'
      · exact absurd rfl hab
      · have h1 : 0 < xs.countP pr := List.countP_pos_iff.mpr ⟨b, hb', hpb⟩
        simp only [List.countP_cons, hpa, if_true]
        omega
    · rcases List.mem_cons.mp hb with rfl | hb'
      · have h1 : 0 < xs.countP pr := List.countP_pos_iff.mpr ⟨a, ha', hpa⟩
        simp only [List.countP_cons, hpb, if_true]
        omega
      · have h2 := ih a b ha' hb' hab hpa hpb
        have h3 : xs.countP pr ≤ (x :: xs).countP pr := by
          rw [List.countP_cons]
          split_ifs <;> omega
        omega

/-- C7 (amended): when the condition list holds at most one condition of
type Progressing, the Complete and DeadlineExceeded predicates are never
simultaneously satisfied; and the classifier is exhaustive over
{Complete, DeadlineExceeded, Progressing}. -/
theorem classify_exclusive_exhaustive (conds : List DeploymentCondition)
    (h : conds.countP (fun c => c.ctype = "Progressing") ≤ 1) :
    ¬(isDeploymentComplete conds = true ∧ isDeploymentFailed conds = true) ∧
    (CalculateRolloutStatus conds = .Complete ∨
     CalculateRolloutStatus conds = .DeadlineExceeded ∨
     CalculateRolloutStatus conds = .Progressing) := by
  constructor
  · rintro ⟨hcomp, hfail⟩
    obtain ⟨c1, hc1m, hc1⟩ :
        ∃ c ∈ conds, c.ctype = "Progressing" ∧ c.status = "True" ∧
          c.reason = NewReplicaSetAvailable := by
      have := (Bool.and_eq_true _ _).mp hcomp
      simpa [hasCondition, NewReplicaSetAvailable, List.any_eq_true] using this.2
    obtain ⟨c2, hc2m, hc2⟩ :
        ∃ c ∈ conds, c.ctype = "Progressing" ∧ c.status = "False" ∧
          c.reason = ProgressDeadlineExceeded := by
      simpa [isDeploymentFailed, hasCondition, ProgressDeadlineExceeded,
        List.any_eq_true] using hfail
    have hne : c1 ≠ c2 := by
      intro hEq
      rw [hEq] at hc1
      rw [hc1.2.1] at hc2
      exact absurd hc2.2.1 (by decide)
    have := two_le_countP_of_mem (fun c => c.ctype = "Progressing") conds c1 c2
      hc1m hc2m hne (by simp [hc1.1]) (by simp [hc2.1])
    omega
  · unfold CalculateRolloutStatus
    split_ifs <;> simp

/-- Witness for C7 (amended) on a single-Progressing condition list. -/
theorem classify_exclusive_exhaustive_witness :
    ¬(isDeploymentComplete [⟨"Progressing", "True", "NewReplicaSetAvailable"⟩] = true ∧
      isDeploymentFailed [⟨"Progressing", "True", "NewReplicaSetAvailable"⟩] = true) := by
  exact (classify_exclusive_exhaustive
    [⟨"Progressing", "True", "NewReplicaSetAvailable"⟩] (by decide)).1

/-- C9 counterexample: with `available = 5` and `desired = 1` (legal
non-negative replica counts the builder can receive from the API), the
progress ratio is `5`, strictly above `1`, so it does not lie in `[0,1]`. -/
theorem progress_ratio_exceeds_one :
    calculateProgress 5 1 = 5 ∧ ¬(calculateProgress 5 1 ≤ 1) := by
  constructor <;> norm_num [calculateProgress]

/-- C9 (amended): for non-negative replica counts with
`available ≤ desired`, the progress ratio lies in `[0,1]`; without that
bound the unclamped ratio can exceed 1. -/
theorem calculateProgress_unit_interval (a d : ℤ) (ha : 0 ≤ a) (had : a ≤ d) :
    0 ≤ calculateProgress a d ∧ calculateProgress a d ≤ 1 := by
  unfold calculateProgress
  split_ifs with h
  · norm_num
  · have hd : 0 < d := by omega
    constructor
    · apply div_nonneg <;> [exact_mod_cast ha; exact_mod_cast hd.le]
    · rw [div_le_one (by exact_mod_cast hd)]
      exact_mod_cast had

/-- Witness for C9 (amended) at `available = 1`, `desired = 2`. -/
theorem calculateProgress_unit_interval_witness :
    0 ≤ calculateProgress 1 2 ∧ calculateProgress 1 2 ≤ 1 :=
  calculateProgress_unit_interval 1 2 (by decide) (by decide)

/-! ### Clustering conservation lemmas -/

theorem updateAt_sub {α : Type} (f : α → α) :
    ∀ (l : List α) (i : Nat), ∀ c ∈ updateAt l i f, c ∈ l ∨ ∃ c0 ∈ l, c = f c0 := by
  intro l
  induction l with
  | nil => intro i c hc; simp [updateAt] at hc
  | cons x xs ih =>
    intro i c hc
    cases i with
    | zero =>
      rcases List.mem_cons.mp hc with rfl | h
      · exact Or.inr ⟨x, List.mem_cons_self _ _, rfl⟩
      · exact Or.inl (List.mem_cons_of_mem _ h)
    | succ n =>
      rcases List.mem_cons.mp hc with rfl | h
      · exact Or.inl (List.mem_cons_self _ _)
      · rcases ih n c h with h' | ⟨c0, hc0, rfl⟩
        · exact Or.inl (List.mem_cons_of_mem _ h')
        · exact Or.inr ⟨c0, List.mem_cons_of_mem _ hc0, rfl⟩

theorem flatten_members_updateAt (idx : Nat) (f : MCluster → MCluster)
    (hf : ∀ c, (f c).members = c.members ++ [idx]) :
    ∀ (cs : List MCluster) (i : Nat), i < cs.length →
      ((updateAt cs i f).map (·.members)).flatten.Perm
        ((cs.map (·.members)).flatten ++ [idx]) := by
  intro cs
  induction cs with
  | nil => intro i hi; simp at hi
  | cons c cs' ih =>
    intro i hi
    cases i with
    | zero =>
      simp only [updateAt, List.map_cons, List.flatten_cons, hf,
        List.append_assoc]
      exact List.Perm.append_left _ List.perm_append_comm
    | succ n =>
      have hn : n < cs'.length := by simpa using hi
      simp only [updateAt, List.map_cons, List.flatten_cons, List.append_assoc]
      exact List.Perm.append_left _ (ih n hn)

theorem bestIdx_eq_none (msg : List String) :
    ∀ cs : List MCluster, bestIdx msg cs = none ↔ cs = [] := by
  intro cs
  cases cs with
  | nil => simp [bestIdx]
  | cons c cs' =>
    simp only [bestIdx]
    constructor
    · intro h
      cases hb : bestIdx msg cs' with
      | none => rw [hb] at h; simp at h
      | some js =>
        obtain ⟨j, s'⟩ := js
        rw [hb] at h
        replace h : (if simScore c.template msg < s' then some (j + 1, s')
            else some (0, simScore c.template msg)) = none := h
        split at h <;> exact Option.noConfusion h
    · intro h; simp at h

theorem bestIdx_lt (msg : List String) :
    ∀ (cs : List MCluster) (i : Nat) (s : ℚ),
      bestIdx msg cs = some (i, s) → i < cs.length := by
  intro cs
  induction cs with
  | nil => intro i s h; simp [bestIdx] at h
  | cons c cs' ih =>
    intro i s h
    simp only [bestIdx] at h
    cases hb : bestIdx msg cs' with
    | none =>
      rw [hb] at h
      simp only [Option.some.injEq, Prod.mk.injEq] at h
      obtain ⟨h1, h2⟩ := h
      subst h1
      simp
    | some js =>
      obtain ⟨j, s'⟩ := js
      rw [hb] at h
      by_cases hlt : simScore c.template msg < s'
      · simp only [hlt, if_true, Option.some.injEq, Prod.mk.injEq] at h
        obtain ⟨h1, h2⟩ := h
        subst h1
        have := ih j s' hb
        simp only [List.length_cons]
        omega
      · simp only [hlt, if_false, Option.some.injEq, Prod.mk.injEq] at h
        obtain ⟨h1, h2⟩ := h
        subst h1
        simp

theorem bestIdx_max (msg : List String) :
    ∀ (cs : List MCluster) (i : Nat) (s : ℚ),
      bestIdx msg cs = some (i, s) →
        ∀ c ∈ cs, simScore c.template msg ≤ s := by
  intro cs
  induction cs with
  | nil => intro i s h; simp [bestIdx] at h
  | cons c cs' ih =>
    intro i s h c' hc'
    simp only [bestIdx] at h
    cases hb : bestIdx msg cs' with
    | none =>
      have hcs' : cs' = [] := (bestIdx_eq_none msg cs').mp hb
      subst hcs'
      rw [hb] at h
      simp only [Option.some.injEq, Prod.mk.injEq] at h
      rcases List.mem_cons.mp hc' with rfl | h'
      · exact le_of_eq h.2
      · simp at h'
    | some js =>
      obtain ⟨j, s'⟩ := js
      rw [hb] at h
      by_cases hlt : simScore c.template msg < s'
      · simp only [hlt, if_true, Option.some.injEq, Prod.mk.injEq] at h
        rcases List.mem_cons.mp hc' with rfl | h'
        · exact le_of_lt (h.2 ▸ hlt)
        · exact h.2 ▸ ih j s' hb c' h'
      · simp only [hlt, if_false, Option.some.injEq, Prod.mk.injEq] at h
        rcases List.mem_cons.mp hc' with rfl | h'
        · exact le_of_eq h.2
        · exact h.2 ▸ le_trans (ih j s' hb c' h') (not_lt.mp hlt)

theorem clusterStep_flatten (θ : ℚ) (ty rs : String) (cs : List MCluster)
    (item : Nat × List String × Int) :
    ((clusterStep θ ty rs cs item).map (·.members)).flatten.Perm
      ((cs.map (·.members)).flatten ++ [item.1]) := by
  unfold clusterStep
  cases hb : bestIdx item.2.1 cs with
  | none => simp
  | some is =>
    obtain ⟨i, sc⟩ := is
    by_cases hθ : θ ≤ sc
    · simp only [hθ, if_true]
      exact flatten_members_updateAt item.1 _ (fun c => rfl) cs i
        (bestIdx_lt item.2.1 cs i sc hb)
    · simp [hθ]

theorem clusterFold_flatten (θ : ℚ) (ty rs : String) :
    ∀ (items : List (Nat × List String × Int)) (cs0 : List MCluster),
      ((items.foldl (clusterStep θ ty rs) cs0).map (·.members)).flatten.Perm
        ((cs0.map (·.members)).flatten ++ items.map (·.1)) := by
  intro items
  induction items with
  | nil => intro cs0; simp
  | cons it rest ih =>
    intro cs0
    simp only [List.foldl_cons, List.map_cons]
    refine (ih _).trans ?_
    have e : ((cs0.map (·.members)).flatten ++ [it.1]) ++ rest.map (·.1)
        = (cs0.map (·.members)).flatten ++ (it.1 :: rest.map (·.1)) := by
      simp
    exact e ▸ ((clusterStep_flatten θ ty rs cs0 it).append_right _)

theorem clusterGroup_flatten (θ : ℚ) (key : String × String)
    (items : List (Nat × List String × Int)) :
    ((clusterGroup θ key items).map (·.members)).flatten.Perm
      (items.map (·.1)) := by
  have h := clusterFold_flatten θ key.1 key.2 items []
  simpa [clusterGroup] using h

theorem clusterFold_inv (θ : ℚ) (ty rs : String) (Q : Nat → Prop) :
    ∀ (items : List (Nat × List String × Int)) (cs0 : List MCluster),
      (∀ c ∈ cs0, c.etype = ty ∧ c.reason = rs ∧ c.members ≠ [] ∧
        ∀ i ∈ c.members, Q i) →
      (∀ it ∈ items, Q it.1) →
      ∀ c ∈ items.foldl (clusterStep θ ty rs) cs0,
        c.etype = ty ∧ c.reason = rs ∧ c.members ≠ [] ∧ ∀ i ∈ c.members, Q i := by
  intro items
  induction items with
  | nil => intro cs0 h0 _ c hc; exact h0 c hc
  | cons it rest ih =>
    intro cs0 h0 hQ c hc
    simp only [List.foldl_cons] at hc
    refine ih (clusterStep θ ty rs cs0 it) ?_ (fun x hx => hQ x (List.mem_cons_of_mem _ hx)) c hc
    intro c' hc'
    have hQit : Q it.1 := hQ it (List.mem_cons_self _ _)
    unfold clusterStep at hc'
    cases hb : bestIdx it.2.1 cs0 with
    | none =>
      rw [hb] at hc'
      rcases List.mem_append.mp hc' with h | h
      · exact h0 c' h
      · simp at h
        subst h
        exact ⟨rfl, rfl, by simp, by simpa using hQit⟩
    | some is =>
      obtain ⟨i, sc⟩ := is
      rw [hb] at hc'
      by_cases hθ : θ ≤ sc
      · simp only [hθ, if_true] at hc'
        rcases updateAt_sub _ cs0 i c' hc' with h | ⟨c0, hc0, rfl⟩
        · exact h0 c' h
        · obtain ⟨he, hr, hne, hq⟩ := h0 c0 hc0
          refine ⟨he, hr, by simp, ?_⟩
          intro j hj
          rcases List.mem_append.mp hj with h | h
          · exact hq j h
          · simp at h; subst h; exact hQit
      · simp only [hθ, if_false] at hc'
        rcases List.mem_append.mp hc' with h | h
        · exact h0 c' h
        · simp at h
          subst h
          exact ⟨rfl, rfl, by simp, by simpa using hQit⟩

theorem clusterGroup_inv (θ : ℚ) (key : String × String)
    (items : List (Nat × List String × Int)) :
    ∀ c ∈ clusterGroup θ key items,
      c.etype = key.1 ∧ c.reason = key.2 ∧ c.members ≠ [] ∧
        ∀ i ∈ c.members, i ∈ items.map (·.1) := by
  exact clusterFold_inv θ key.1 key.2 (fun i => i ∈ items.map (·.1)) items []
    (by intro c hc; simp at hc)
    (by intro it hit; exact List.mem_map_of_mem _ hit)

/-! ### Grouping lemmas -/

theorem insertGrouped_flatten (key : String × String)
    (pl : Nat × List String × Int) :
    ∀ gs, ((insertGrouped gs key pl).map (·.2)).flatten.Perm
      ((gs.map (·.2)).flatten ++ [pl]) := by
  intro gs
  induction gs with
  | nil => simp [insertGrouped]
  | cons g rest ih =>
    obtain ⟨k, its⟩ := g
    simp only [insertGrouped]
    by_cases hk : k = key
    · simp only [hk, if_true, List.map_cons, List.flatten_cons,
        List.append_assoc]
      exact List.Perm.append_left _ List.perm_append_comm
    · simp only [hk, if_false, List.map_cons, List.flatten_cons,
        List.append_assoc]
      exact List.Perm.append_left _ ih

theorem insertGrouped_keys
    (P : (String × String) → (Nat × List String × Int) → Prop) :
    ∀ gs key pl, (∀ g ∈ gs, ∀ q ∈ g.2, P g.1 q) → P key pl →
      ∀ g ∈ insertGrouped gs key pl, ∀ q ∈ g.2, P g.1 q := by
  intro gs
  induction gs with
  | nil =>
    intro key pl _ hP g hg q hq
    simp only [insertGrouped, List.mem_singleton] at hg
    subst hg
    simp only [List.mem_singleton] at hq
    subst hq
    exact hP
  | cons g0 rest ih =>
    intro key pl h0 hP g hg q hq
    obtain ⟨k, its⟩ := g0
    simp only [insertGrouped] at hg
    by_cases hk : k = key
    · rw [if_pos hk] at hg
      rcases List.mem_cons.mp hg with rfl | hg'
      · rcases List.mem_append.mp hq with h | h
        · exact h0 (k, its) (List.mem_cons_self _ _) q h
        · simp at h
          subst h
          exact hk ▸ hP
      · exact h0 g (List.mem_cons_of_mem _ hg') q hq
    · rw [if_neg hk] at hg
      rcases List.mem_cons.mp hg with rfl | hg'
      · exact h0 (k, its) (List.mem_cons_self _ _) q hq
      · exact ih key pl (fun g' hg'' => h0 g' (List.mem_cons_of_mem _ hg'')) hP
          g hg' q hq

theorem groupFold_count (ignore : Option (String → Bool)) :
    ∀ (l : List (Nat × Event))
      (acc : List ((String × String) × List (Nat × List String × Int)) × Nat),
      (l.foldl (groupStep ignore) acc).2
        = acc.2 + l.countP fun ie => ignoredBy ignore ie.2 := by
  intro l
  induction l with
  | nil => intro acc; simp
  | cons ie rest ih =>
    intro acc
    by_cases hig : ignoredBy ignore ie.2
    · simp only [List.foldl_cons, groupStep, hig, if_true]
      rw [ih]
      simp [List.countP_cons, hig]
      omega
    · simp only [List.foldl_cons, groupStep, hig, if_false]
      rw [ih]
      simp [List.countP_cons, hig]

theorem groupFold_flatten (ignore : Option (String → Bool)) :
    ∀ (l : List (Nat × Event))
      (acc : List ((String × String) × List (Nat × List String × Int)) × Nat),
      ((l.foldl (groupStep ignore) acc).1.map (·.2)).flatten.Perm
        ((acc.1.map (·.2)).flatten ++
          (l.filter fun ie => !ignoredBy ignore ie.2).map
            fun ie => (ie.1, maskedTokens ie.2.message, getEventTime ie.2)) := by
  intro l
  induction l with
  | nil => intro acc; simp
  | cons ie rest ih =>
    intro acc
    by_cases hig : ignoredBy ignore ie.2
    · simp only [List.foldl_cons, groupStep, hig, if_true, List.filter_cons,
        Bool.not_true, Bool.false_eq_true]
      simpa using ih (acc.1, acc.2 + 1)
    · have hig' : ignoredBy ignore ie.2 = false := by simpa using hig
      simp only [List.foldl_cons, groupStep, hig', Bool.false_eq_true, if_false,
        List.filter_cons, Bool.not_false, if_true, List.map_cons]
      refine (ih _).trans ?_
      have e : (((acc.1.map (·.2)).flatten ++
            [(ie.1, maskedTokens ie.2.message, getEventTime ie.2)]) ++
            (rest.filter fun ie => !ignoredBy ignore ie.2).map
              (fun ie => (ie.1, maskedTokens ie.2.message, getEventTime ie.2)))
          = ((acc.1.map (·.2)).flatten ++
            ((ie.1, maskedTokens ie.2.message, getEventTime ie.2) ::
              (rest.filter fun ie => !ignoredBy ignore ie.2).map
                fun ie => (ie.1, maskedTokens ie.2.message, getEventTime ie.2))) := by
        simp
      rw [← e]
      exact (insertGrouped_flatten _ _ acc.1).append_right _

theorem groupFold_keys (events : List Event) (ignore : Option (String → Bool)) :
    ∀ (l : List (Nat × Event))
      (acc : List ((String × String) × List (Nat × List String × Int)) × Nat),
      (∀ ie ∈ l, events.get? ie.1 = some ie.2) →
      (∀ g ∈ acc.1, ∀ pl ∈ g.2, ∃ e, events.get? pl.1 = some e ∧
        e.etype = g.1.1 ∧ e.reason = g.1.2) →
      ∀ g ∈ (l.foldl (groupStep ignore) acc).1, ∀ pl ∈ g.2,
        ∃ e, events.get? pl.1 = some e ∧ e.etype = g.1.1 ∧ e.reason = g.1.2 := by
  intro l
  induction l with
  | nil => intro acc _ hacc g hg pl hpl; exact hacc g hg pl hpl
  | cons ie rest ih =>
    intro acc hl hacc
    have hie : events.get? ie.1 = some ie.2 := hl ie (List.mem_cons_self _ _)
    have hl' : ∀ x ∈ rest, events.get? x.1 = some x.2 :=
      fun x hx => hl x (List.mem_cons_of_mem _ hx)
    by_cases hig : ignoredBy ignore ie.2
    · simp only [List.foldl_cons, groupStep, hig, if_true]
      exact ih _ hl' hacc
    · simp only [List.foldl_cons, groupStep, hig, if_false]
      refine ih _ hl' ?_
      exact insertGrouped_keys
        (fun k q => ∃ e, events.get? q.1 = some e ∧ e.etype = k.1 ∧ e.reason = k.2)
        acc.1 (ie.2.etype, ie.2.reason) _ hacc ⟨ie.2, hie, rfl, rfl⟩

/-! ### Summarizer-level invariants -/

theorem groupsClusters_flatten (θ : ℚ) :
    ∀ gs : List ((String × String) × List (Nat × List String × Int)),
      (((gs.map fun g => clusterGroup θ g.1 g.2).flatten).map (·.members)).flatten.Perm
        (((gs.map (·.2)).flatten).map (·.1)) := by
  intro gs
  induction gs with
  | nil => simp
  | cons g rest ih =>
    simp only [List.map_cons, List.flatten_cons, List.map_append,
      List.flatten_append]
    exact (clusterGroup_flatten θ g.1 g.2).append ih

theorem summarizeCore_flatten (events : List Event)
    (ignore : Option (String → Bool)) (θ : ℚ) :
    ((summarizeCore events ignore θ).1.map (·.members)).flatten.Perm
      ((events.enum.filter fun ie => !ignoredBy ignore ie.2).map (·.1)) := by
  unfold summarizeCore buildGroups
  refine (groupsClusters_flatten θ _).trans ?_
  have h := (groupFold_flatten ignore events.enum ([], 0)).map (·.1)
  simp only [List.map_nil, List.flatten_nil, List.nil_append, List.map_map] at h
  exact h

theorem summarizeCore_ignored (events : List Event)
    (ignore : Option (String → Bool)) (θ : ℚ) :
    (summarizeCore events ignore θ).2 = events.countP (ignoredBy ignore) := by
  unfold summarizeCore buildGroups
  rw [groupFold_count]
  simp only [Nat.zero_add]
  have h2 : events.enum.map Prod.snd = events := List.enum_map_snd events
  conv_rhs => rw [← h2]
  have h3 : List.countP (fun ie => ignoredBy ignore ie.2) events.enum
      = List.countP (ignoredBy ignore ∘ Prod.snd) events.enum := rfl
  rw [h3]
  exact (List.countP_map _ _ _).symm

theorem summarizeCore_inv (events : List Event)
    (ignore : Option (String → Bool)) (θ : ℚ) :
    ∀ c ∈ (summarizeCore events ignore θ).1,
      c.members ≠ [] ∧ ∀ i ∈ c.members,
        ∃ e, events.get? i = some e ∧ e.etype = c.etype ∧ e.reason = c.reason := by
  intro c hc
  unfold summarizeCore at hc
  obtain ⟨cl, hcl, hmem⟩ := List.mem_flatten.mp hc
  obtain ⟨g, hg, rfl⟩ := List.mem_map.mp hcl
  obtain ⟨he, hr, hne, hsub⟩ := clusterGroup_inv θ g.1 g.2 c hmem
  have hkeys : ∀ pl ∈ g.2, ∃ e, events.get? pl.1 = some e ∧
      e.etype = g.1.1 ∧ e.reason = g.1.2 := by
    refine groupFold_keys events ignore events.enum ([], 0) ?_ ?_ g hg
    · intro ie hie
      have := List.mk_mem_enum_iff_getElem?.mp hie
      simpa [List.get?_eq_getElem?] using this
    · intro g' hg'; simp at hg'
  refine ⟨hne, ?_⟩
  intro i hi
  obtain ⟨pl, hpl, hpl1⟩ := List.mem_map.mp (hsub i hi)
  obtain ⟨e, hge, het, her⟩ := hkeys pl hpl
  exact ⟨e, hpl1 ▸ hge, he ▸ het, hr ▸ her⟩

/-! ### Sorting lemmas -/

theorem insertSorted_perm (x : EventCluster) :
    ∀ l, (insertSorted x l).Perm (x :: l) := by
  intro l
  induction l with
  | nil => simp [insertSorted]
  | cons y ys ih =>
    simp only [insertSorted]
    split
    · exact (ih.cons y).trans (List.Perm.swap x y ys)
    · exact List.Perm.refl _

theorem sortClusters_perm : ∀ l, (sortClusters l).Perm l := by
  intro l
  induction l with
  | nil => simp [sortClusters]
  | cons x xs ih =>
    simp only [sortClusters, List.foldr_cons]
    exact (insertSorted_perm x _).trans (ih.cons x)

theorem countP_not_add {α : Type} (l : List α) (p : α → Bool) :
    l.countP (fun a => !p a) + l.countP p = l.length := by
  induction l with
  | nil => simp
  | cons x xs ih =>
    simp only [List.countP_cons, List.length_cons]
    cases hx : p x <;> simp [hx] <;> omega

theorem enum_countP (events : List Event) (p : Event → Bool) :
    events.enum.countP (fun ie => p ie.2) = events.countP p := by
  have h3 : List.countP (fun ie => p ie.2) events.enum
      = List.countP (p ∘ Prod.snd) events.enum := rfl
  rw [h3,
    show List.countP (p ∘ Prod.snd) events.enum
        = (events.enum.map Prod.snd).countP p from (List.countP_map _ _ _).symm,
    List.enum_map_snd]

/-- C10: event counting is conserved — every output cluster has
`exemplarCount ≥ 1`, the exemplar counts plus `ignoredCount` sum to the
number of input events, and the clusters' member indices are exactly (each
exactly once) the indices of the non-ignored events. -/
theorem event_count_conserved (events : List Event)
    (ignore : Option (String → Bool)) (θ : ℚ)
    (σ : List EventCluster → List EventCluster)
    (hσ : ∀ l, (σ l).Perm l) :
    (∀ c ∈ (SummarizeEvents σ events ignore θ).clusters, 1 ≤ c.exemplarCount) ∧
    ((SummarizeEvents σ events ignore θ).clusters.map (·.exemplarCount)).sum
        + (SummarizeEvents σ events ignore θ).ignoredCount = events.length ∧
    ((summarizeCore events ignore θ).1.map (·.members)).flatten.Perm
      ((events.enum.filter fun ie => !ignoredBy ignore ie.2).map (·.1)) := by
  by_cases h0 : events.length = 0
  · have he : events = [] := List.length_eq_zero.mp h0
    subst he
    refine ⟨?_, ?_, ?_⟩ <;>
      simp [SummarizeEvents, summarizeCore, buildGroups]
  · have hS : SummarizeEvents σ events ignore θ =
        ⟨sortClusters (σ ((summarizeCore events ignore θ).1.map toEventCluster)),
          (summarizeCore events ignore θ).2⟩ := by
      simp [SummarizeEvents, h0]
    have hperm : (SummarizeEvents σ events ignore θ).clusters.Perm
        ((summarizeCore events ignore θ).1.map toEventCluster) := by
      rw [hS]
      exact (sortClusters_perm _).trans (hσ _)
    refine ⟨?_, ?_, summarizeCore_flatten events ignore θ⟩
    · intro c hc
      have hc' := hperm.mem_iff.mp hc
      obtain ⟨mc, hmc, rfl⟩ := List.mem_map.mp hc'
      have hne := (summarizeCore_inv events ignore θ mc hmc).1
      simpa [toEventCluster] using List.length_pos.mpr hne
    · have hsum1 : ((SummarizeEvents σ events ignore θ).clusters.map
            (·.exemplarCount)).sum
          = (((summarizeCore events ignore θ).1.map toEventCluster).map
            (·.exemplarCount)).sum :=
        (hperm.map (·.exemplarCount)).sum_eq
      have hsum2 : (((summarizeCore events ignore θ).1.map toEventCluster).map
            (·.exemplarCount)).sum
          = (((summarizeCore events ignore θ).1.map (·.members)).map
            List.length).sum := by
        simp only [List.map_map]
        rfl
      have hsum3 : (((summarizeCore events ignore θ).1.map (·.members)).map
            List.length).sum
          = ((summarizeCore events ignore θ).1.map (·.members)).flatten.length :=
        (List.length_flatten _).symm
      have hsum4 : ((summarizeCore events ignore θ).1.map (·.members)).flatten.length
          = ((events.enum.filter fun ie => !ignoredBy ignore ie.2).map
            (·.1)).length :=
        (summarizeCore_flatten events ignore θ).length_eq
      have hign : (SummarizeEvents σ events ignore θ).ignoredCount
          = events.countP (ignoredBy ignore) := by
        rw [hS]
        exact summarizeCore_ignored events ignore θ
      rw [hsum1, hsum2, hsum3, hsum4, hign]
      simp only [List.length_map]
      rw [← List.countP_eq_length_filter,
        show events.enum.countP (fun ie => !ignoredBy ignore ie.2)
            = events.countP (fun e => !ignoredBy ignore e) from
          enum_countP events (fun e => !ignoredBy ignore e)]
      exact countP_not_add events (ignoredBy ignore)

/-- Witness for C10 on a concrete two-event input (one of them ignored),
with the canonical map order `σ = id`. -/
theorem event_count_conserved_witness :
    ((SummarizeEvents id
        [⟨"Warning", "Bad", "x y", none, none, 0⟩,
         ⟨"Normal", "Ok", "z", none, none, 1⟩]
        (some fun s => s = "Ok: z") (mkRat 17 20)).clusters.map
          (·.exemplarCount)).sum
      + (SummarizeEvents id
        [⟨"Warning", "Bad", "x y", none, none, 0⟩,
         ⟨"Normal", "Ok", "z", none, none, 1⟩]
        (some fun s => s = "Ok: z") (mkRat 17 20)).ignoredCount = 2 :=
  (event_count_conserved
    [⟨"Warning", "Bad", "x y", none, none, 0⟩,
     ⟨"Normal", "Ok", "z", none, none, 1⟩]
    (some fun s => s = "Ok: z") (mkRat 17 20) id (fun l => List.Perm.refl l)).2.1

/-- C6: with an ignore pattern present, `ignoredCount` equals exactly the
number of events whose `"<reason>: <message>"` string matches; matching
events are excluded from clustering and the clusters' members are exactly
the indices of the non-matching events; with no pattern nothing is
ignored. -/
theorem ignore_filter_spec (events : List Event) (pat : String → Bool)
    (θ : ℚ) (σ : List EventCluster → List EventCluster)
    (hσ : ∀ l, (σ l).Perm l) :
    (SummarizeEvents σ events (some pat) θ).ignoredCount
        = (events.filter fun e => pat (e.reason ++ ": " ++ e.message)).length ∧
    ((summarizeCore events (some pat) θ).1.map (·.members)).flatten.Perm
      ((events.enum.filter fun ie =>
          !pat (ie.2.reason ++ ": " ++ ie.2.message)).map (·.1)) ∧
    (SummarizeEvents σ events none θ).ignoredCount = 0 := by
  have hpat : ignoredBy (some pat) = fun e => pat (e.reason ++ ": " ++ e.message) := by
    funext e
    rfl
  refine ⟨?_, ?_, ?_⟩
  · by_cases h0 : events.length = 0
    · have he : events = [] := List.length_eq_zero.mp h0
      subst he
      simp [SummarizeEvents]
    · have h1 : (SummarizeEvents σ events (some pat) θ).ignoredCount
          = (summarizeCore events (some pat) θ).2 := by
        simp [SummarizeEvents, h0]
      rw [h1, summarizeCore_ignored, ← List.countP_eq_length_filter, hpat]
  · have h := summarizeCore_flatten events (some pat) θ
    rw [hpat] at h
    exact h
  · by_cases h0 : events.length = 0
    · simp [SummarizeEvents, h0]
    · have h1 : (SummarizeEvents σ events none θ).ignoredCount
          = (summarizeCore events none θ).2 := by
        simp [SummarizeEvents, h0]
      rw [h1, summarizeCore_ignored]
      have : ignoredBy (none : Option (String → Bool)) = fun _ => false := by
        funext e
        rfl
      rw [this]
      simp

theorem updateAt_length {α : Type} (f : α → α) :
    ∀ (l : List α) (i : Nat), (updateAt l i f).length = l.length := by
  intro l
  induction l with
  | nil => intro i; rfl
  | cons x xs ih =>
    intro i
    cases i with
    | zero => rfl
    | succ n => simp only [updateAt, List.length_cons, ih n]

/-- C5 counterexample: three same-`(type, reason)` events with messages
`a b c d e`, `v w x d e`, `a b x d e` at threshold `θ = 3/5`.  The masked
messages of events 1 and 2 have similarity `3/5 ≥ θ`, yet event 2 joins
the first cluster (score 4/5 against its template beats 3/5) while event 1
stays alone in the second cluster: similarity above the threshold does not
imply a shared cluster. -/
theorem similar_messages_in_different_clusters :
    (mkRat 3 5 ≤ simScore (maskedTokens "v w x d e") (maskedTokens "a b x d e")) ∧
    ((summarizeCore
        [⟨"Normal", "r", "a b c d e", none, none, 0⟩,
         ⟨"Normal", "r", "v w x d e", none, none, 0⟩,
         ⟨"Normal", "r", "a b x d e", none, none, 0⟩] none (mkRat 3 5)).1.map
      fun c => c.members) = [[0, 2], [1]] := by
  constructor
  · decide
  · decide

/-- C5 (amended): events with different type or reason never share a
cluster — every member of every cluster is an event carrying exactly the
cluster's `(type, reason)`; and a message whose best-scoring existing
template reaches the threshold joins an existing cluster rather than
founding a new one (mutual similarity `≥ θ` between two messages does not
by itself force a shared cluster). -/
theorem cluster_type_reason_separation (events : List Event)
    (ignore : Option (String → Bool)) (θ : ℚ) :
    (∀ c ∈ (summarizeCore events ignore θ).1, ∀ i ∈ c.members,
      ∃ e, events.get? i = some e ∧ e.etype = c.etype ∧ e.reason = c.reason) ∧
    (∀ (ty rs : String) (cs : List MCluster) (item : Nat × List String × Int),
      (∃ c ∈ cs, θ ≤ simScore c.template item.2.1) →
      (clusterStep θ ty rs cs item).length = cs.length) := by
  constructor
  · intro c hc
    exact (summarizeCore_inv events ignore θ c hc).2
  · rintro ty rs cs item ⟨c, hc, hθ⟩
    have hne : cs ≠ [] := by
      intro h
      subst h
      simp at hc
    cases hb : bestIdx item.2.1 cs with
    | none => exact absurd ((bestIdx_eq_none _ _).mp hb) hne
    | some is =>
      obtain ⟨i, sc⟩ := is
      have hmax := bestIdx_max item.2.1 cs i sc hb c hc
      have hsc : θ ≤ sc := le_trans hθ hmax
      unfold clusterStep
      rw [hb]
      simp only [hsc, if_true]
      exact updateAt_length _ cs i

/-- Witness for C5 (amended), instantiating the separation property on a
one-event input and the join property on a one-cluster state. -/
theorem cluster_type_reason_separation_witness :
    (∃ e, [(⟨"Warning", "r", "a", none, none, 0⟩ : Event)].get? 0 = some e ∧
      e.etype = "Warning" ∧ e.reason = "r") ∧
    (clusterStep (mkRat 17 20) "Warning" "r" [⟨"Warning", "r", ["a"], [0], [0]⟩]
      (1, ["a"], 0)).length = 1 := by
  constructor
  · exact (cluster_type_reason_separation
      [⟨"Warning", "r", "a", none, none, 0⟩] none (mkRat 17 20)).1
      ⟨"Warning", "r", ["a"], [0], [0]⟩ (by decide) 0 (by decide)
  · exact (cluster_type_reason_separation
      [⟨"Warning", "r", "a", none, none, 0⟩] none (mkRat 17 20)).2
      "Warning" "r" [⟨"Warning", "r", ["a"], [0], [0]⟩] (1, ["a"], 0)
      ⟨⟨"Warning", "r", ["a"], [0], [0]⟩, by decide, by decide⟩

/-! ### Sort-order lemmas for C4 -/

theorem charListLt_asymm : ∀ (a b : List Char),
    charListLt a b = true → charListLt b a = false := by
  intro a
  induction a with
  | nil =>
    intro b h
    cases b with
    | nil => simp [charListLt] at h
    | cons y ys => simp [charListLt]
  | cons x xs ih =>
    intro b h
    cases b with
    | nil => simp [charListLt] at h
    | cons y ys =>
      simp only [charListLt] at h ⊢
      by_cases hxy : x < y
      · rw [if_pos hxy] at h
        rw [if_neg (lt_asymm hxy), if_pos hxy]
      · rw [if_neg hxy] at h
        by_cases hyx : y < x
        · rw [if_pos hyx] at h
          exact Bool.noConfusion h
        · rw [if_neg hyx] at h
          rw [if_neg hyx, if_neg hxy]
          exact ih ys h

theorem charListLt_total : ∀ (a b : List Char),
    charListLt a b = true ∨ charListLt b a = true ∨ a = b := by
  intro a
  induction a with
  | nil =>
    intro b
    cases b with
    | nil => exact Or.inr (Or.inr rfl)
    | cons y ys => exact Or.inl (by simp [charListLt])
  | cons x xs ih =>
    intro b
    cases b with
    | nil => exact Or.inr (Or.inl (by simp [charListLt]))
    | cons y ys =>
      rcases lt_trichotomy x y with hxy | hxy | hxy
      · exact Or.inl (by simp [charListLt, hxy])
      · subst hxy
        rcases ih ys with h | h | h
        · refine Or.inl ?_
          simp only [charListLt, if_neg (lt_irrefl x)]
          exact h
        · refine Or.inr (Or.inl ?_)
          simp only [charListLt, if_neg (lt_irrefl x)]
          exact h
        · exact Or.inr (Or.inr (by rw [h]))
      · refine Or.inr (Or.inl ?_)
        simp [charListLt, hxy]

theorem charListLt_trans : ∀ (a b c : List Char),
    charListLt a b = true → charListLt b c = true → charListLt a c = true := by
  intro a
  induction a with
  | nil =>
    intro b c _ hbc
    cases c with
    | nil =>
      cases b with
      | nil => simp [charListLt] at hbc
      | cons y ys => simp [charListLt] at hbc
    | cons z zs => simp [charListLt]
  | cons x xs ih =>
    intro b c hab hbc
    cases b with
    | nil => simp [charListLt] at hab
    | cons y ys =>
      cases c with
      | nil => simp [charListLt] at hbc
      | cons z zs =>
        simp only [charListLt] at hab hbc ⊢
        rcases lt_trichotomy x y with hxy | hxy | hxy
        · rcases lt_trichotomy y z with hyz | hyz | hyz
          · rw [if_pos (lt_trans hxy hyz)]
          · subst hyz
            rw [if_pos hxy]
          · rw [if_neg (lt_asymm hyz), if_pos hyz] at hbc
            exact Bool.noConfusion hbc
        · subst hxy
          rcases lt_trichotomy x z with hxz | hxz | hxz
          · rw [if_pos hxz]
          · subst hxz
            rw [if_neg (lt_irrefl x)] at hab hbc ⊢
            rw [if_neg (lt_irrefl x)] at hab hbc ⊢
            exact ih ys zs hab hbc
          · rw [if_neg (lt_asymm hxz), if_pos hxz] at hbc
            exact Bool.noConfusion hbc
        · rw [if_neg (lt_asymm hxy), if_pos hxy] at hab
          exact Bool.noConfusion hab

theorem clusterLess_eq (a b : EventCluster) :
    clusterLess a b = (if a.etype = b.etype
      then (if a.exemplarCount = b.exemplarCount
            then strLtB a.reason b.reason
            else decide (b.exemplarCount < a.exemplarCount))
      else decide (a.etype = "Warning")) := by
  unfold clusterLess
  by_cases h1 : a.etype = b.etype
  · rw [if_neg (by simpa using h1), if_pos h1]
    by_cases h2 : a.exemplarCount = b.exemplarCount
    · rw [if_neg (by simpa using h2), if_pos h2]
    · rw [if_pos h2, if_neg h2]
  · rw [if_pos h1, if_neg h1]

theorem clusterLess_asymm (a b : EventCluster)
    (h : clusterLess a b = true) : clusterLess b a = false := by
  rw [clusterLess_eq] at h ⊢
  by_cases h1 : a.etype = b.etype
  · rw [if_pos h1] at h
    rw [if_pos h1.symm]
    by_cases h2 : a.exemplarCount = b.exemplarCount
    · rw [if_pos h2] at h
      rw [if_pos h2.symm]
      exact charListLt_asymm _ _ h
    · rw [if_neg h2] at h
      rw [if_neg fun hEq => h2 hEq.symm]
      simp only [decide_eq_true_eq] at h
      simp only [decide_eq_false_iff_not]
      omega
  · rw [if_neg h1] at h
    rw [if_neg fun hEq => h1 hEq.symm]
    simp only [decide_eq_true_eq] at h
    simp only [decide_eq_false_iff_not]
    intro hb
    exact h1 (h.trans hb.symm)

theorem clusterLess_swo (x y z : EventCluster)
    (hx : WN x) (hy : WN y) (hz : WN z)
    (h : clusterLess z x = true) :
    clusterLess z y = true ∨ clusterLess y x = true := by
  simp only [clusterLess_eq] at h ⊢
  by_cases hzx : z.etype = x.etype
  · rw [if_pos hzx] at h
    by_cases hzy : z.etype = y.etype
    · have hyx : y.etype = x.etype := hzy.symm.trans hzx
      rw [if_pos hzy, if_pos hyx]
      by_cases hc1 : z.exemplarCount = x.exemplarCount
      · rw [if_pos hc1] at h
        by_cases hc2 : z.exemplarCount = y.exemplarCount
        · have hcyx : y.exemplarCount = x.exemplarCount := hc2.symm.trans hc1
          rw [if_pos hc2, if_pos hcyx]
          rcases charListLt_total z.reason.data y.reason.data with hr | hr | hr
          · exact Or.inl hr
          · exact Or.inr (charListLt_trans _ _ _ hr h)
          · refine Or.inr ?_
            unfold strLtB at h ⊢
            rw [hr] at h
            exact h
        · rw [if_neg hc2]
          by_cases hor : y.exemplarCount < z.exemplarCount
          · left
            simpa using hor
          · right
            have hcyx : ¬y.exemplarCount = x.exemplarCount := by omega
            rw [if_neg hcyx]
            simp only [decide_eq_true_eq]
            omega
      · rw [if_neg hc1] at h
        simp only [decide_eq_true_eq] at h
        by_cases hc2 : z.exemplarCount = y.exemplarCount
        · right
          have hcyx : ¬y.exemplarCount = x.exemplarCount := by omega
          rw [if_neg hcyx]
          simp only [decide_eq_true_eq]
          omega
        · by_cases hor : y.exemplarCount < z.exemplarCount
          · left
            rw [if_neg hc2]
            simpa using hor
          · right
            have hcyx : ¬y.exemplarCount = x.exemplarCount := by omega
            rw [if_neg hcyx]
            simp only [decide_eq_true_eq]
            omega
    · rw [if_neg hzy]
      by_cases hyx : y.etype = x.etype
      · exact absurd (hzx.trans hyx.symm) hzy
      · rw [if_neg hyx]
        rcases hz with hzW | hzN
        · left
          simpa using hzW
        · rcases hy with hyW | hyN
          · right
            simpa using hyW
          · exact absurd (hzN.trans hyN.symm) hzy
  · rw [if_neg hzx] at h
    simp only [decide_eq_true_eq] at h
    by_cases hzy : z.etype = y.etype
    · right
      have hyx : ¬y.etype = x.etype := fun hh => hzx (hzy.trans hh)
      rw [if_neg hyx]
      simp only [decide_eq_true_eq]
      exact hzy.symm.trans h
    · left
      rw [if_neg hzy]
      simp only [decide_eq_true_eq]
      exact h

theorem pairwise_insertSorted (x : EventCluster) :
    ∀ l, (∀ y ∈ x :: l, WN y) →
      l.Pairwise (fun a b => clusterLess b a = false) →
      (insertSorted x l).Pairwise (fun a b => clusterLess b a = false) := by
  intro l
  induction l with
  | nil => intro _ _; simp [insertSorted]
  | cons y ys ih =>
    intro hWN hp
    rw [List.pairwise_cons] at hp
    obtain ⟨hy, hys⟩ := hp
    simp only [insertSorted]
    by_cases h : clusterLess y x = true
    · rw [if_pos h, List.pairwise_cons]
      constructor
      · intro z hz
        have hz' : z = x ∨ z ∈ ys := by
          simpa using (insertSorted_perm x ys).mem_iff.mp hz
        rcases hz' with rfl | hz'
        · exact clusterLess_asymm y z h
        · exact hy z hz'
      · refine ih ?_ hys
        intro w hw
        rcases List.mem_cons.mp hw with rfl | hw'
        · exact hWN w (List.mem_cons_self _ _)
        · exact hWN w (List.mem_cons_of_mem _ (List.mem_cons_of_mem _ hw'))
    · rw [if_neg h, List.pairwise_cons]
      constructor
      · intro z hz
        rcases List.mem_cons.mp hz with rfl | hz'
        · simpa using h
        · by_contra hzx
          have hzx' : clusterLess z x = true := by simpa using hzx
          have hWx : WN x := hWN x (List.mem_cons_self _ _)
          have hWy : WN y := hWN y (List.mem_cons_of_mem _ (List.mem_cons_self _ _))
          have hWz : WN z := hWN z
            (List.mem_cons_of_mem _ (List.mem_cons_of_mem _ hz'))
          rcases clusterLess_swo x y z hWx hWy hWz hzx' with hzy | hyx
          · have := hy z hz'
            rw [this] at hzy
            exact Bool.noConfusion hzy
          · exact h hyx
      · exact List.pairwise_cons.mpr ⟨hy, hys⟩

theorem sortClusters_pairwise :
    ∀ l, (∀ y ∈ l, WN y) →
      (sortClusters l).Pairwise (fun a b => clusterLess b a = false) := by
  intro l
  induction l with
  | nil => intro _; simp [sortClusters]
  | cons x xs ih =>
    intro hWN
    simp only [sortClusters, List.foldr_cons]
    refine pairwise_insertSorted x _ ?_
      (ih fun y hy => hWN y (List.mem_cons_of_mem _ hy))
    intro y hy
    rcases List.mem_cons.mp hy with rfl | hy'
    · exact hWN y (List.mem_cons_self _ _)
    · exact hWN y (List.mem_cons_of_mem _ ((sortClusters_perm xs).mem_iff.mp hy'))

theorem summarizeCore_WN (events : List Event)
    (ignore : Option (String → Bool)) (θ : ℚ)
    (hT : ∀ e ∈ events, e.etype = "Warning" ∨ e.etype = "Normal") :
    ∀ c ∈ (summarizeCore events ignore θ).1.map toEventCluster, WN c := by
  intro c hc
  obtain ⟨mc, hmc, rfl⟩ := List.mem_map.mp hc
  obtain ⟨hne, hmem⟩ := summarizeCore_inv events ignore θ mc hmc
  obtain ⟨i, hi⟩ := List.exists_mem_of_ne_nil _ hne
  obtain ⟨e, hge, het, _⟩ := hmem i hi
  have heW := hT e (List.get?_mem hge)
  unfold WN toEventCluster
  simpa [← het] using heW

/-- C4 counterexample: the output order is not a function of the input
alone.  Two same-type, same-reason, same-count clusters tie on every sort
key; reversing the (unspecified) hash-map iteration order of the pre-sort
list — both orders arise in Go — yields two different sorted outputs for
the identical input event set. -/
theorem cluster_order_not_deterministic :
    (∀ l : List EventCluster, l.reverse.Perm l) ∧
    SummarizeEvents List.reverse
        [⟨"Warning", "r", "a b", none, none, 0⟩,
         ⟨"Warning", "r", "c d", none, none, 0⟩] none (mkRat 17 20)
      ≠ SummarizeEvents id
        [⟨"Warning", "r", "a b", none, none, 0⟩,
         ⟨"Warning", "r", "c d", none, none, 0⟩] none (mkRat 17 20) := by
  constructor
  · intro l
    exact l.reverse_perm
  · decide

/-- C4 (amended): for Warning/Normal-typed events the output cluster list
is always sorted by the comparator (Warning before Normal, then descending
exemplar count, then ascending reason), and its multiset of clusters is a
deterministic function of the input; only the relative order of clusters
that tie on all three sort keys depends on internal map-iteration order. -/
theorem clusters_sorted (events : List Event)
    (ignore : Option (String → Bool)) (θ : ℚ)
    (σ : List EventCluster → List EventCluster)
    (hσ : ∀ l, (σ l).Perm l)
    (hT : ∀ e ∈ events, e.etype = "Warning" ∨ e.etype = "Normal") :
    (SummarizeEvents σ events ignore θ).clusters.Pairwise
      (fun a b => clusterLess b a = false) ∧
    (SummarizeEvents σ events ignore θ).clusters.Perm
      ((summarizeCore events ignore θ).1.map toEventCluster) := by
  by_cases h0 : events.length = 0
  · have he : events = [] := List.length_eq_zero.mp h0
    subst he
    constructor <;> simp [SummarizeEvents, summarizeCore, buildGroups]
  · have hS : SummarizeEvents σ events ignore θ =
        ⟨sortClusters (σ ((summarizeCore events ignore θ).1.map toEventCluster)),
          (summarizeCore events ignore θ).2⟩ := by
      simp [SummarizeEvents, h0]
    constructor
    · rw [hS]
      refine sortClusters_pairwise _ ?_
      intro y hy
      exact summarizeCore_WN events ignore θ hT y ((hσ _).mem_iff.mp hy)
    · rw [hS]
      exact (sortClusters_perm _).trans (hσ _)

/-- Witness for C4 (amended) on a concrete two-event input with canonical
map order. -/
theorem clusters_sorted_witness :
    (SummarizeEvents id
        [⟨"Normal", "s", "m", none, none, 0⟩,
         ⟨"Warning", "r", "w", none, none, 0⟩] none (mkRat 17 20)).clusters.Pairwise
      (fun a b => clusterLess b a = false) :=
  (clusters_sorted
    [⟨"Normal", "s", "m", none, none, 0⟩,
     ⟨"Warning", "r", "w", none, none, 0⟩] none (mkRat 17 20) id
    (fun l => List.Perm.refl l)
    (by
      intro e he
      simp only [List.mem_cons, List.not_mem_nil, or_false] at he
      rcases he with rfl | rfl
      · exact Or.inr rfl
      · exact Or.inl rfl)).1

/-! ### Regex matcher lemmas for C8 -/

theorem option_orElse_eq_some {α : Type} (a b : Option α) (r : α)
    (h : (a <|> b) = some r) : a = some r ∨ (a = none ∧ b = some r) := by
  cases a with
  | none => exact Or.inr ⟨rfl, by simpa [Option.orElse] using h⟩
  | some x => exact Or.inl (by simpa [Option.orElse] using h)

theorem lastOpt_nil (prev : Option Char) : lastOpt prev [] = prev := rfl

theorem lastOpt_cons (prev : Option Char) (c : Char) (u : List Char) :
    lastOpt prev (c :: u) = lastOpt (some c) u := by
  cases u with
  | nil => rfl
  | cons d u' =>
    unfold lastOpt
    rw [List.getLast?_cons_cons]
    cases h : (d :: u').getLast? with
    | none => exact absurd h (by simp)
    | some e => rfl

theorem lastOpt_append (prev : Option Char) (u v : List Char) :
    lastOpt (lastOpt prev u) v = lastOpt prev (u ++ v) := by
  induction u generalizing prev with
  | nil => rw [lastOpt_nil, List.nil_append]
  | cons c u' ih =>
    rw [List.cons_append, lastOpt_cons, lastOpt_cons]
    exact ih (some c)

theorem repRun_consumes (d p : Char → Bool) (hp : ∀ c, p c = true → d c = true) :
    ∀ (s : List Char) (lo : Nat) (hi : Option Nat) (prev : Option Char)
      (k : Option Char → List Char → Option (List Char)) (res : List Char),
      repRun p lo hi prev s k = some res →
      ∃ u v, s = u ++ v ∧ (∀ c ∈ u, d c = true) ∧
        k (lastOpt prev u) v = some res := by
  intro s
  induction s with
  | nil =>
    intro lo hi prev k res h
    simp only [repRun] at h
    split at h
    · exact ⟨[], [], rfl, by simp, by simpa [lastOpt_nil] using h⟩
    · exact Option.noConfusion h
  | cons c rest ih =>
    intro lo hi prev k res h
    simp only [repRun] at h
    by_cases hhi : hi = some 0
    · rw [if_pos hhi] at h
      split at h
      · exact ⟨[], c :: rest, rfl, by simp, by simpa [lastOpt_nil] using h⟩
      · exact Option.noConfusion h
    · rw [if_neg hhi] at h
      by_cases hpc : p c = true
      · rw [if_pos hpc] at h
        rcases option_orElse_eq_some _ _ _ h with h1 | ⟨_, h2⟩
        · obtain ⟨u, v, hs, hd, hk⟩ := ih _ _ _ _ _ h1
          refine ⟨c :: u, v, by simp [hs], ?_, ?_⟩
          · intro x hx
            rcases List.mem_cons.mp hx with rfl | hx'
            · exact hp _ hpc
            · exact hd x hx'
          · rw [lastOpt_cons]
            exact hk
        · split at h2
          · exact ⟨[], c :: rest, rfl, by simp, by simpa [lastOpt_nil] using h2⟩
          · exact Option.noConfusion h2
      · rw [if_neg hpc] at h
        split at h
        · exact ⟨[], c :: rest, rfl, by simp, by simpa [lastOpt_nil] using h⟩
        · exact Option.noConfusion h

theorem reRun_consumes (d : Char → Bool) :
    ∀ (r : RE), clsOnly d r →
      ∀ (prev : Option Char) (s : List Char)
        (k : Option Char → List Char → Option (List Char)) (res : List Char),
        reRun r prev s k = some res →
        ∃ u v, s = u ++ v ∧ (∀ c ∈ u, d c = true) ∧
          k (lastOpt prev u) v = some res := by
  intro r
  induction r with
  | cls p =>
    intro hcls prev s k res h
    cases s with
    | nil =>
      simp only [reRun] at h
      exact Option.noConfusion h
    | cons c rest =>
      simp only [reRun] at h
      by_cases hpc : p c = true
      · rw [if_pos hpc] at h
        refine ⟨[c], rest, rfl, ?_, ?_⟩
        · intro x hx
          rcases List.mem_cons.mp hx with rfl | hx'
          · exact hcls _ hpc
          · simp at hx'
        · rw [lastOpt_cons, lastOpt_nil]
          exact h
      · rw [if_neg hpc] at h
        exact Option.noConfusion h
  | rep p lo hi =>
    intro hcls prev s k res h
    exact repRun_consumes d p hcls s lo hi prev k res h
  | seq a b iha ihb =>
    intro hcls prev s k res h
    simp only [reRun] at h
    obtain ⟨u1, v1, hs1, hd1, hk1⟩ := iha hcls.1 prev s _ res h
    obtain ⟨u2, v2, hs2, hd2, hk2⟩ := ihb hcls.2 _ v1 _ res hk1
    refine ⟨u1 ++ u2, v2, ?_, ?_, ?_⟩
    · rw [hs1, hs2, List.append_assoc]
    · intro x hx
      rcases List.mem_append.mp hx with hx' | hx'
      · exact hd1 x hx'
      · exact hd2 x hx'
    · rw [← lastOpt_append]
      exact hk2
  | opt a iha =>
    intro hcls prev s k res h
    simp only [reRun] at h
    rcases option_orElse_eq_some _ _ _ h with h1 | ⟨_, h2⟩
    · exact iha hcls prev s k res h1
    · exact ⟨[], s, rfl, by simp, by simpa [lastOpt_nil] using h2⟩
  | wb =>
    intro _ prev s k res h
    simp only [reRun] at h
    split at h
    · exact ⟨[], s, rfl, by simp, by simpa [lastOpt_nil] using h⟩
    · exact Option.noConfusion h

theorem posMatchAt_some (r : RE) (prev : Option Char) (s : List Char) (n : Nat)
    (h : posMatchAt r prev s = some n) :
    1 ≤ n ∧ n ≤ s.length ∧ matchLenAt r prev s = some n := by
  unfold posMatchAt at h
  cases hm : matchLenAt r prev s with
  | none =>
    rw [hm] at h
    exact Option.noConfusion h
  | some m =>
    rw [hm] at h
    cases m with
    | zero => exact Option.noConfusion h
    | succ m' =>
      have h' : some (m' + 1) = some n := h
      have he := Option.some.inj h'
      subst he
      refine ⟨by omega, ?_, rfl⟩
      unfold matchLenAt at hm
      cases hr : reRun r prev s (fun _ rest => some rest) with
      | none =>
        rw [hr] at hm
        exact Option.noConfusion hm
      | some rest =>
        rw [hr] at hm
        simp at hm
        omega

theorem posMatchAt_ne_zero (r : RE) (prev : Option Char) (s : List Char) :
    posMatchAt r prev s ≠ some 0 := by
  intro h
  have := (posMatchAt_some r prev s 0 h).1
  omega

theorem posMatchAt_consumes (d : Char → Bool) (r : RE) (hr : clsOnly d r)
    (prev : Option Char) (s : List Char) (n : Nat)
    (h : posMatchAt r prev s = some n) :
    ∀ c ∈ s.take n, d c = true := by
  obtain ⟨_, _, hm⟩ := posMatchAt_some r prev s n h
  unfold matchLenAt at hm
  cases hr' : reRun r prev s (fun _ rest => some rest) with
  | none =>
    rw [hr'] at hm
    exact Option.noConfusion hm
  | some rest =>
    rw [hr'] at hm
    simp at hm
    obtain ⟨u, v, hs, hd, hk⟩ := reRun_consumes d r hr prev s _ rest hr'
    have hv : v = rest := Option.some.inj hk
    subst hv
    have hlen : s.length = u.length + v.length := by
      rw [hs, List.length_append]
    have hn : n = u.length := by omega
    rw [hs, hn, List.take_left]
    exact hd

theorem existsMatch_nil (r : RE) (prev : Option Char) :
    existsMatch r prev [] = false := by
  unfold existsMatch
  cases hp : posMatchAt r prev [] with
  | none => simp
  | some n =>
    obtain ⟨h1, h2, _⟩ := posMatchAt_some r prev [] n hp
    rw [List.length_nil] at h2
    omega

theorem isPrefixB_append_self : ∀ (t b : List Char), isPrefixB t (t ++ b) = true := by
  intro t
  induction t with
  | nil => intro b; rfl
  | cons c cs ih =>
    intro b
    simp only [List.cons_append, isPrefixB]
    simp [ih b]

theorem occursB_append_self (t b : List Char) : occursB t (t ++ b) = true := by
  cases t with
  | nil =>
    cases b with
    | nil => rfl
    | cons x xs => rfl
  | cons a as =>
    show (isPrefixB (a :: as) ((a :: as) ++ b) || occursB (a :: as) (as ++ b)) = true
    rw [isPrefixB_append_self]
    rfl

theorem occursB_cons_of (t : List Char) (c : Char) (s : List Char)
    (h : occursB t s = true) : occursB t (c :: s) = true := by
  simp only [occursB, Bool.or_eq_true]
  exact Or.inr h

theorem occursB_append_left (y t s : List Char)
    (h : occursB t s = true) : occursB t (y ++ s) = true := by
  induction y with
  | nil => exact h
  | cons c cs ih => exact occursB_cons_of _ _ _ ih

theorem isPrefixB_iff : ∀ t s : List Char,
    isPrefixB t s = true ↔ ∃ b, s = t ++ b := by
  intro t
  induction t with
  | nil =>
    intro s
    constructor
    · intro _
      exact ⟨s, rfl⟩
    · intro _
      rfl
  | cons a as ih =>
    intro s
    cases s with
    | nil =>
      simp only [isPrefixB]
      constructor
      · intro h; exact Bool.noConfusion h
      · rintro ⟨b, hb⟩; exact List.noConfusion hb
    | cons c cs =>
      simp only [isPrefixB, Bool.and_eq_true, decide_eq_true_eq]
      rw [ih cs]
      constructor
      · rintro ⟨rfl, b, rfl⟩
        exact ⟨b, rfl⟩
      · rintro ⟨b, hb⟩
        injection hb with h1 h2
        exact ⟨h1.symm, b, h2⟩

theorem occursB_iff : ∀ s t : List Char,
    occursB t s = true ↔ ∃ x y, s = x ++ t ++ y := by
  intro s
  induction s with
  | nil =>
    intro t
    show isPrefixB t [] = true ↔ _
    rw [isPrefixB_iff]
    constructor
    · rintro ⟨b, hb⟩
      exact ⟨[], b, by simpa using hb⟩
    · rintro ⟨x, y, hxy⟩
      obtain ⟨h1, h2⟩ := List.append_eq_nil.mp hxy.symm
      obtain ⟨h3, h4⟩ := List.append_eq_nil.mp h1
      exact ⟨[], by simp [h4]⟩
  | cons c cs ih =>
    intro t
    show (isPrefixB t (c :: cs) || occursB t cs) = true ↔ _
    rw [Bool.or_eq_true, isPrefixB_iff, ih t]
    constructor
    · rintro (⟨b, hb⟩ | ⟨x, y, rfl⟩)
      · exact ⟨[], b, by simpa using hb⟩
      · exact ⟨c :: x, y, rfl⟩
    · rintro ⟨x, y, hxy⟩
      cases x with
      | nil =>
        left
        exact ⟨y, by simpa using hxy⟩
      | cons x0 xs =>
        right
        injection hxy with h1 h2
        exact ⟨xs, y, h2⟩

theorem scanReplF_token_occurs (r : RE) (tok : List Char) :
    ∀ (fuel : Nat) (prev : Option Char) (s : List Char),
      s.length ≤ fuel → existsMatch r prev s = true →
      occursB tok (scanReplF r tok fuel prev s) = true := by
  intro fuel
  induction fuel with
  | zero =>
    intro prev s hf hm
    have hs : s = [] := List.length_eq_zero.mp (Nat.le_zero.mp hf)
    subst hs
    rw [existsMatch_nil] at hm
    exact Bool.noConfusion hm
  | succ fuel ih =>
    intro prev s hf hm
    cases s with
    | nil =>
      rw [existsMatch_nil] at hm
      exact Bool.noConfusion hm
    | cons c rest =>
      cases hp : posMatchAt r prev (c :: rest) with
      | some n =>
        cases n with
        | zero => exact absurd hp (posMatchAt_ne_zero _ _ _)
        | succ n' =>
          simp only [scanReplF, hp]
          exact occursB_append_self tok _
      | none =>
        simp only [scanReplF, hp]
        have hm' : existsMatch r (some c) rest = true := by
          simp only [existsMatch, hp, Option.isSome_none, Bool.false_or] at hm
          exact hm
        have hf' : rest.length ≤ fuel := by
          simp only [List.length_cons] at hf
          omega
        exact occursB_cons_of _ _ _ (ih (some c) rest hf' hm')

theorem scanReplF_pass (r : RE) (tok : List Char) (d : Char → Bool)
    (hr : clsOnly d r) :
    ∀ (t : List Char), (∀ c ∈ t, d c = false) →
      ∀ (fuel : Nat) (prev : Option Char) (b : List Char),
        (t ++ b).length ≤ fuel →
        scanReplF r tok fuel prev (t ++ b)
          = t ++ scanReplF r tok (fuel - t.length) (lastOpt prev t) b := by
  intro t
  induction t with
  | nil =>
    intro _ fuel prev b _
    rw [List.nil_append, lastOpt_nil]
    rfl
  | cons c t' ih =>
    intro hd fuel prev b hf
    cases fuel with
    | zero => simp at hf
    | succ fuel' =>
      have key : ∀ n, posMatchAt r prev (c :: (t' ++ b)) ≠ some (n + 1) := by
        intro n hp
        have hall := posMatchAt_consumes d r hr prev _ _ hp
        have hc : d c = true := by
          refine hall c ?_
          rw [List.take_succ_cons]
          exact List.mem_cons_self _ _
        have hc' := hd c (List.mem_cons_self _ _)
        rw [hc'] at hc
        exact Bool.noConfusion hc
      have harm : scanReplF r tok (fuel' + 1) prev (c :: (t' ++ b))
          = c :: scanReplF r tok fuel' (some c) (t' ++ b) := by
        cases hp : posMatchAt r prev (c :: (t' ++ b)) with
        | none => simp only [scanReplF, hp]
        | some n =>
          cases n with
          | zero => simp only [scanReplF, hp]
          | succ n' => exact absurd hp (key n')
      rw [List.cons_append, harm]
      have hf' : (t' ++ b).length ≤ fuel' := by
        simp only [List.cons_append, List.length_cons] at hf
        omega
      rw [ih (fun x hx => hd x (List.mem_cons_of_mem _ hx)) fuel' (some c) b hf']
      rw [lastOpt_cons]
      simp [Nat.succ_sub_succ]

theorem scanReplF_preserves (r : RE) (tok : List Char) (d : Char → Bool)
    (hr : clsOnly d r) (t : List Char) (ht : ∀ c ∈ t, d c = false)
    (htne : t ≠ []) :
    ∀ (fuel : Nat) (prev : Option Char) (s : List Char),
      s.length ≤ fuel → occursB t s = true →
      occursB t (scanReplF r tok fuel prev s) = true := by
  intro fuel
  induction fuel with
  | zero =>
    intro prev s hf ho
    have hs : s = [] := List.length_eq_zero.mp (Nat.le_zero.mp hf)
    subst hs
    exact ho
  | succ fuel ih =>
    intro prev s hf ho
    cases s with
    | nil => exact ho
    | cons c rest =>
      obtain ⟨x, y, hxy⟩ := (occursB_iff (c :: rest) t).mp ho
      cases hp : posMatchAt r prev (c :: rest) with
      | none =>
        simp only [scanReplF, hp]
        cases x with
        | nil =>
          obtain ⟨t0, t', rfl⟩ : ∃ t0 t', t = t0 :: t' := by
            cases t with
            | nil => exact absurd rfl htne
            | cons a b => exact ⟨a, b, rfl⟩
          simp only [List.nil_append, List.cons_append] at hxy
          injection hxy with h1 h2
          subst h2
          rw [h1]
          have hf' : (t' ++ y).length ≤ fuel := by
            simp only [List.length_cons] at hf
            omega
          rw [scanReplF_pass r tok d hr t'
            (fun z hz => ht z (List.mem_cons_of_mem _ hz)) fuel (some t0) y hf']
          have : t0 :: (t' ++ scanReplF r tok (fuel - t'.length) (lastOpt (some t0) t') y)
              = (t0 :: t') ++ scanReplF r tok (fuel - t'.length) (lastOpt (some t0) t') y := rfl
          rw [this]
          exact occursB_append_self _ _
        | cons x0 xs =>
          simp only [List.cons_append] at hxy
          injection hxy with h1 h2
          have ho' : occursB t rest = true := by
            rw [occursB_iff]
            exact ⟨xs, y, h2⟩
          have hf' : rest.length ≤ fuel := by
            simp only [List.length_cons] at hf
            omega
          exact occursB_cons_of _ _ _ (ih (some c) rest hf' ho')
      | some n =>
        cases n with
        | zero => exact absurd hp (posMatchAt_ne_zero _ _ _)
        | succ n' =>
          simp only [scanReplF, hp]
          have hall := posMatchAt_consumes d r hr prev _ _ hp
          have hxlen : n' + 1 ≤ x.length := by
            by_contra hgt
            push_neg at hgt
            obtain ⟨t0, t', rfl⟩ : ∃ t0 t', t = t0 :: t' := by
              cases t with
              | nil => exact absurd rfl htne
              | cons a b => exact ⟨a, b, rfl⟩
            have hmem : t0 ∈ (c :: rest).take (n' + 1) := by
              rw [hxy, List.append_assoc, List.take_append_eq_append_take]
              refine List.mem_append.mpr (Or.inr ?_)
              have hpos : 0 < n' + 1 - x.length := by omega
              cases hm2 : n' + 1 - x.length with
              | zero => omega
              | succ m' =>
                rw [List.cons_append, List.take_succ_cons]
                exact List.mem_cons_self _ _
            have hc : d t0 = true := hall t0 hmem
            have hc' := ht t0 (List.mem_cons_self _ _)
            rw [hc'] at hc
            exact Bool.noConfusion hc
          have hdrop : (c :: rest).drop (n' + 1)
              = x.drop (n' + 1) ++ (t ++ y) := by
            rw [hxy, List.append_assoc, List.drop_append_eq_append_drop]
            have hz : n' + 1 - x.length = 0 := by omega
            rw [hz, List.drop_zero]
          have hocc : occursB t ((c :: rest).drop (n' + 1)) = true := by
            rw [occursB_iff]
            exact ⟨x.drop (n' + 1), y, by rw [hdrop, List.append_assoc]⟩
          have hf' : ((c :: rest).drop (n' + 1)).length ≤ fuel := by
            simp only [List.length_drop, List.length_cons]
            simp only [List.length_cons] at hf
            omega
          exact occursB_append_left tok _ _ (ih _ _ hf' hocc)

theorem maskMessage_eq (msg : String) :
    maskMessage msg = replaceAllRE uuidRE "<UUID>" (replaceAllRE ipRE "<IP>"
      (replaceAllRE ipPortRE "<IP:PORT>" (replaceAllRE gkeNodeRE "<NODE>"
        (replaceAllRE ec2NodeRE "<NODE>" (replaceAllRE podRE "<POD>"
          (replaceAllRE nsPodRE "<NS>/<POD>"
            (replaceAllRE ecrImageRE "<IMAGE>" msg))))))) := rfl

theorem clsOnly_ipRE : clsOnly (fun c => isDig c || c = '.') ipRE := by
  unfold ipRE catRE octetRE litRE epsRE
  simp only [List.foldr]
  refine ⟨trivial, ?_, ?_, ?_, ?_, ?_, ?_, ?_, trivial, ?_⟩ <;>
    (intro c hc; simp_all)

theorem clsOnly_uuidRE : clsOnly (fun c => isHex c || c = '-') uuidRE := by
  unfold uuidRE catRE litRE epsRE
  simp only [List.foldr]
  refine ⟨trivial, ?_, ?_, ?_, ?_, ?_, ?_, ?_, ?_, ?_, trivial, ?_⟩ <;>
    (intro c hc; simp_all)

/-- C8 counterexample: the message `connect to gke-10.0.0.5:8080 failed`
contains the IPv4:port occurrence `10.0.0.5:8080` (the source's own
ip:port regex matches it), yet masking applies the earlier GKE-node
pattern first, which consumes `gke-10`; the result is
`connect to <NODE>.0.0.5:8080 failed`, which does not contain the token
`<IP:PORT>` — refuting the claim for this message. -/
theorem ipport_mask_defeated :
    occursB "10.0.0.5:8080".data "connect to gke-10.0.0.5:8080 failed".data = true ∧
    existsMatch ipPortRE none "connect to gke-10.0.0.5:8080 failed".data = true ∧
    maskMessage "connect to gke-10.0.0.5:8080 failed"
      = "connect to <NODE>.0.0.5:8080 failed" ∧
    occursB "<IP:PORT>".data
      (maskMessage "connect to gke-10.0.0.5:8080 failed").data = false := by
  refine ⟨by decide, by decide, by decide, by decide⟩

/-- C8 (amended): on any message on which none of the five earlier, more
specific masking patterns fires, a message containing an IPv4:port match
is masked to contain the token `<IP:PORT>` (the token also survives the
later bare-IP and UUID patterns); and on the spec's example message the
literal address is gone:
`maskMessage "error connecting to 10.0.0.5:8080" = "error connecting to <IP:PORT>"`. -/
theorem ipport_masking :
    (∀ msg : String,
      replaceAllRE ecrImageRE "<IMAGE>" msg = msg →
      replaceAllRE nsPodRE "<NS>/<POD>" msg = msg →
      replaceAllRE podRE "<POD>" msg = msg →
      replaceAllRE ec2NodeRE "<NODE>" msg = msg →
      replaceAllRE gkeNodeRE "<NODE>" msg = msg →
      existsMatch ipPortRE none msg.data = true →
      occursB "<IP:PORT>".data (maskMessage msg).data = true) ∧
    maskMessage "error connecting to 10.0.0.5:8080"
      = "error connecting to <IP:PORT>" := by
  constructor
  · intro msg h1 h2 h3 h4 h5 hm
    rw [maskMessage_eq, h1, h2, h3, h4, h5]
    have hstep1 : occursB "<IP:PORT>".data
        (replaceAllRE ipPortRE "<IP:PORT>" msg).data = true := by
      show occursB "<IP:PORT>".data
        (scanReplF ipPortRE "<IP:PORT>".data msg.data.length none msg.data) = true
      exact scanReplF_token_occurs ipPortRE "<IP:PORT>".data msg.data.length
        none msg.data (le_refl _) hm
    have hstep2 : occursB "<IP:PORT>".data
        (replaceAllRE ipRE "<IP>" (replaceAllRE ipPortRE "<IP:PORT>" msg)).data
          = true := by
      show occursB "<IP:PORT>".data
        (scanReplF ipRE "<IP>".data
          (replaceAllRE ipPortRE "<IP:PORT>" msg).data.length none
          (replaceAllRE ipPortRE "<IP:PORT>" msg).data) = true
      exact scanReplF_preserves ipRE "<IP>".data (fun c => isDig c || c = '.')
        clsOnly_ipRE "<IP:PORT>".data (by decide) (by decide) _ none _
        (le_refl _) hstep1
    show occursB "<IP:PORT>".data
      (scanReplF uuidRE "<UUID>".data
        (replaceAllRE ipRE "<IP>"
          (replaceAllRE ipPortRE "<IP:PORT>" msg)).data.length none
        (replaceAllRE ipRE "<IP>"
          (replaceAllRE ipPortRE "<IP:PORT>" msg)).data) = true
    exact scanReplF_preserves uuidRE "<UUID>".data (fun c => isHex c || c = '-')
      clsOnly_uuidRE "<IP:PORT>".data (by decide) (by decide) _ none _
      (le_refl _) hstep2
  · decide

/-- Witness for C8 (amended): the spec's example message, on which none of
the five earlier patterns matches, masks to contain `<IP:PORT>`. -/
theorem ipport_masking_witness :
    occursB "<IP:PORT>".data
      (maskMessage "error connecting to 10.0.0.5:8080").data = true :=
  ipport_masking.1 "error connecting to 10.0.0.5:8080"
    (by decide) (by decide) (by decide) (by decide) (by decide) (by decide)

/-- Witness for C6: a two-event input where the pattern matches exactly
the first event. -/
theorem ignore_filter_spec_witness :
    (SummarizeEvents id
        [⟨"Warning", "Bad", "x", none, none, 0⟩,
         ⟨"Normal", "Ok", "z", none, none, 1⟩]
        (some fun s => s = "Bad: x") (mkRat 17 20)).ignoredCount
      = ([⟨"Warning", "Bad", "x", none, none, 0⟩,
          ⟨"Normal", "Ok", "z", none, none, 1⟩].filter
            fun e : Event => (fun s => s = "Bad: x") (e.reason ++ ": " ++ e.message)).length :=
  (ignore_filter_spec
    [⟨"Warning", "Bad", "x", none, none, 0⟩,
     ⟨"Normal", "Ok", "z", none, none, 1⟩]
    (fun s => s = "Bad: x") (mkRat 17 20) id (fun l => List.Perm.refl l)).1

end WatchRollout
